import Mathlib

/-!
# Shamir secret sharing (`sss.c`, `sss.h`): embedding and verification

The C functions of `sss.c` are embedded as Lean functions over `Int`.  A C `int`
is a 32-bit two's complement integer: every `+`, `-`, `*`, `/` and unary `-` of
the source is followed by `wrap32`, the reduction into `[-2^31, 2^31)`, and `%`
is the truncating remainder of C (`Int.tmod`).  Loops with an `int` counter are
folds over `List.range`, the `while` loop of `mult_inverse` is a recursion on
the loop state.
-/

namespace SSS

/-! ## Machine integers -/

/-- Reduction of an integer into the 32-bit two's complement range. -/
def wrap32 (z : Int) : Int := (z + 2147483648) % 4294967296 - 2147483648

/-- C `a + b` on `int`. -/
def c_add (a b : Int) : Int := wrap32 (a + b)

/-- C `a - b` on `int`. -/
def c_sub (a b : Int) : Int := wrap32 (a - b)

/-- C `a * b` on `int`. -/
def c_mul (a b : Int) : Int := wrap32 (a * b)

/-- C unary `-a` on `int`. -/
def c_neg (a : Int) : Int := wrap32 (-a)

/-- C `a / b` on `int`: the quotient truncated towards zero. -/
def c_div (a b : Int) : Int := wrap32 (Int.tdiv a b)

/-- C `a % b` on `int`: the remainder of the truncated division. -/
def c_mod (a b : Int) : Int := Int.tmod a b

/-! ## `sss.h` -/

/-- The constant `SSS_P` of `sss.h`, `2^15 - 19`. -/
abbrev SSS_P : Int := 32749

/-- The struct `share_t` of `sss.h`. -/
structure share_t where
  x : Int
  y : Int
deriving DecidableEq, Repr

/-! ## `sss.c` -/

/-- The macro `NEG_MOD(x)`, `((x % SSS_P) + SSS_P)`. -/
def NEG_MOD (x : Int) : Int := c_add (c_mod x SSS_P) SSS_P

/-- The loop of `power`: `k` further iterations of `n = (n * base) % SSS_P`. -/
def power_loop (base : Int) : Nat → Int → Int
  | 0, n => n
  | k + 1, n => power_loop base k (c_mod (c_mul n base) SSS_P)

/-- The function `power`: the loop `for (n = 1; p > 0; p--)` runs `p` times when
`p` is positive and not at all otherwise. -/
def power (base p : Int) : Int := power_loop base p.toNat 1

/-- The function `evaluate_poly`: `i` runs over `0 .. degree`, the body is
`res += (poly_coeffs[i] * power(x, i)) % SSS_P; res %= SSS_P;`.  The array is a
list; a read past its end (undefined in C) yields 0. -/
def evaluate_poly (x : Int) (poly_coeffs : List Int) (degree : Int) : Int :=
  (List.range (c_add degree 1).toNat).foldl
    (fun res i =>
      c_mod (c_add res (c_mod (c_mul (poly_coeffs.getD i 0) (power x i)) SSS_P)) SSS_P)
    0

/-- The local variables of `mult_inverse` that live across loop iterations. -/
structure eea_state where
  r : Int
  old_r : Int
  s : Int
  old_s : Int
  t : Int
  old_t : Int
deriving DecidableEq, Repr

/-- The body of the `while` loop of `mult_inverse`. -/
def mult_inverse_step (st : eea_state) : eea_state :=
  let quotient := c_div st.old_r st.r
  { r := c_sub st.old_r (c_mul quotient st.r)
    old_r := st.r
    s := c_sub st.old_s (c_mul quotient st.s)
    old_s := st.s
    t := c_sub st.old_t (c_mul quotient st.t)
    old_t := st.t }

/-- The `while (r != 0)` loop of `mult_inverse`.  It terminates on every state:
the new `r` is the remainder of `old_r` by `r`, of smaller absolute value. -/
def mult_inverse_loop (st : eea_state) : eea_state :=
  if st.r = 0 then st else mult_inverse_loop (mult_inverse_step st)
termination_by st.r.natAbs
decreasing_by
  rename_i h
  simp only [mult_inverse_step, c_sub, c_mul, c_div]
  generalize st.r = r at h
  generalize st.old_r = a
  have hdiv : r * Int.tdiv a r + Int.tmod a r = a := Int.tdiv_add_tmod a r
  have hlt : (Int.tmod a r).natAbs < r.natAbs := by
    have : (Int.tmod a r).natAbs = a.natAbs % r.natAbs := by
      cases a <;> cases r <;> simp [Int.tmod, Int.natAbs_ofNat, Int.natAbs_neg] <;> rfl
    rw [this]; exact Nat.mod_lt _ (Int.natAbs_pos.mpr h)
  have hX : wrap32 (Int.tdiv a r) * r
      = r * Int.tdiv a r - 4294967296 * ((Int.tdiv a r + 2147483648) / 4294967296 * r) := by
    have : wrap32 (Int.tdiv a r)
        = Int.tdiv a r - 4294967296 * ((Int.tdiv a r + 2147483648) / 4294967296) := by
      unfold wrap32; omega
    rw [this]; ring
  generalize wrap32 (Int.tdiv a r) * r = X at hX
  generalize (Int.tdiv a r + 2147483648) / 4294967296 * r = K at hX
  generalize r * Int.tdiv a r = Q at hX hdiv
  generalize Int.tmod a r = m at hdiv hlt
  unfold wrap32
  omega

/-- The function `mult_inverse`. -/
def mult_inverse (x : Int) : Int :=
  let fin := mult_inverse_loop
    { r := SSS_P, old_r := x, s := 0, old_s := 1, t := 1, old_t := 0 }
  if fin.old_s ≥ 0 then c_mod fin.old_s SSS_P else NEG_MOD fin.old_s

/-- At most `k + 1` tests of the condition of the `while` loop of `mult_inverse`:
`none` when `r` is still nonzero after `k` iterations.  It evaluates
`mult_inverse_loop` on concrete states. -/
def mult_inverse_unroll : Nat → eea_state → Option eea_state
  | 0, st => if st.r = 0 then some st else none
  | k + 1, st => if st.r = 0 then some st else mult_inverse_unroll k (mult_inverse_step st)

/-- The rejection loop `while ((poly_coeffs[i] = random() % SSS_P) == 0);` of
`get_shares`.  The argument lists the values that the successive calls of
`random()` return (nonnegative by POSIX); the result is the coefficient and the
values not yet consumed, or `none` when every listed value is rejected (the
loop is still running when the list ends). -/
def draw_coeff : List Nat → Option (Int × List Nat)
  | [] => none
  | r :: rest =>
    if c_mod (r : Int) SSS_P = 0 then draw_coeff rest
    else some (c_mod (r : Int) SSS_P, rest)

/-- The loop `for (i = 1; i < min_reconstruction_shares; i++)` of `get_shares`,
with `k` iterations left: the coefficients `poly_coeffs[i]` in increasing `i`. -/
def draw_coeffs : Nat → List Nat → Option (List Int × List Nat)
  | 0, rng => some ([], rng)
  | k + 1, rng =>
    match draw_coeff rng with
    | none => none
    | some (c, rng1) =>
      match draw_coeffs k rng1 with
      | none => none
      | some (cs, rng2) => some (c :: cs, rng2)

/-- The last loop of `get_shares`: for `i` in `0 .. num_shares - 1`,
`shares[i].x = i+1; shares[i].y = evaluate_poly(i+1, poly_coeffs, t-1)`.
The array `shares` is a list; a write past its end (undefined in C, excluded by
the comment "shares[] has to have at least size num_shares") is dropped. -/
def write_shares (poly_coeffs : List Int) (min_reconstruction_shares : Int)
    (num_shares : Int) (shares : List share_t) : List share_t :=
  (List.range num_shares.toNat).foldl
    (fun sh i =>
      sh.set i
        { x := c_add i 1
          y := evaluate_poly (c_add i 1) poly_coeffs (c_sub min_reconstruction_shares 1) })
    shares

/-- What a call of `get_shares` leaves behind: `ret` is the value of the
`return` statement executed, `none` when control reaches the closing brace of
the function (the success path has no `return`); `shares` is the array after
the call; `rng` lists the values of `random()` not consumed. -/
structure get_shares_result where
  ret : Option Int
  shares : List share_t
  rng : List Nat
deriving DecidableEq, Repr

/-- The function `get_shares`.  `rng` lists the values returned by the calls of
`random()` after the seeding; the result is `none` when the list ends inside a
rejection loop.  `poly_coeffs` is the list `secret :: coefficients`; for
`min_reconstruction_shares <= 0` (where the C array has no element) the model
follows the control flow of the source. -/
def get_shares (secret min_reconstruction_shares num_shares : Int)
    (shares : List share_t) (rng : List Nat) : Option get_shares_result :=
  if num_shares < min_reconstruction_shares then
    some { ret := some (-1), shares := shares, rng := rng }
  else
    let secret1 := c_mod secret SSS_P
    let secret2 := if secret1 < 0 then c_add secret1 SSS_P else secret1
    match draw_coeffs (min_reconstruction_shares - 1).toNat rng with
    | none => none
    | some (cs, rng1) =>
      some { ret := none
             shares := write_shares (secret2 :: cs) min_reconstruction_shares num_shares shares
             rng := rng1 }

/-- One factor of the inner loop of `combine_shares`:
`( NEG_MOD(-xj) * mult_inverse(xi % SSS_P + NEG_MOD(-xj)) ) % SSS_P`. -/
def lagrange_factor (xi xj : Int) : Int :=
  c_mod (c_mul (NEG_MOD (c_neg xj)) (mult_inverse (c_add (c_mod xi SSS_P) (NEG_MOD (c_neg xj)))))
    SSS_P

/-- The inner loop of `combine_shares` for a fixed `i`: `prod_res` starts at 1,
the index `j == i` is skipped, otherwise
`prod_res *= lagrange_factor; prod_res %= SSS_P;`. -/
def combine_inner (num_shares : Int) (shares : List share_t) (i : Nat) : Int :=
  (List.range num_shares.toNat).foldl
    (fun prod_res j =>
      if j = i then prod_res
      else
        c_mod
          (c_mul prod_res
            (lagrange_factor (shares.getD i ⟨0, 0⟩).x (shares.getD j ⟨0, 0⟩).x))
          SSS_P)
    1

/-- The function `combine_shares`: the outer loop adds
`(prod_res * shares[i].y) % SSS_P` to `res` and reduces `res` modulo `SSS_P`.
A read past the end of the list (undefined in C) yields the share `(0, 0)`. -/
def combine_shares (num_shares : Int) (shares : List share_t) : Int :=
  (List.range num_shares.toNat).foldl
    (fun res i =>
      c_mod
        (c_add res (c_mod (c_mul (combine_inner num_shares shares i) (shares.getD i ⟨0, 0⟩).y) SSS_P))
        SSS_P)
    0

/-! ## The same code with checked arithmetic

Every `+`, `-`, `*`, `/` and unary `-` of the source yields its exact value over
the unbounded integers when that value fits a 32-bit `int`, and `none` when it
does not.  A result `some v` therefore says that no intermediate value left the
`int` range and that `v` is the result over the unbounded integers. -/

/-- The exact value of an `int` expression when it fits, `none` otherwise. -/
def chk (z : Int) : Option Int :=
  if -2147483648 ≤ z ∧ z ≤ 2147483647 then some z else none

/-- The macro `NEG_MOD(x)` with checked arithmetic. -/
def NEG_MOD_chk (x : Int) : Option Int := chk (Int.tmod x SSS_P + SSS_P)

/-- The loop of `power` with checked arithmetic. -/
def power_loop_chk (base : Int) : Nat → Int → Option Int
  | 0, n => some n
  | k + 1, n => (chk (n * base)).bind (fun m => power_loop_chk base k (Int.tmod m SSS_P))

/-- The function `power` with checked arithmetic. -/
def power_chk (base p : Int) : Option Int := power_loop_chk base p.toNat 1

/-- The function `evaluate_poly` with checked arithmetic. -/
def evaluate_poly_chk (x : Int) (poly_coeffs : List Int) (degree : Int) : Option Int :=
  (chk (degree + 1)).bind (fun bound =>
    (List.range bound.toNat).foldl
      (fun acc (i : Nat) =>
        acc.bind (fun res =>
          (power_chk x i).bind (fun pw =>
            (chk (poly_coeffs.getD i 0 * pw)).bind (fun m =>
              (chk (res + Int.tmod m SSS_P)).bind (fun r => some (Int.tmod r SSS_P))))))
      (some 0))

/-- The body of the loop of `mult_inverse` over the unbounded integers. -/
def mult_inverse_step_Z (st : eea_state) : eea_state :=
  let quotient := Int.tdiv st.old_r st.r
  { r := st.old_r - quotient * st.r
    old_r := st.r
    s := st.old_s - quotient * st.s
    old_s := st.s
    t := st.old_t - quotient * st.t
    old_t := st.t }

/-- All seven values computed by one iteration of the loop of `mult_inverse`
(the quotient, the three products and the three differences) fit an `int`. -/
def mult_inverse_step_fits (st : eea_state) : Prop :=
  (chk (Int.tdiv st.old_r st.r)).isSome ∧
  (chk (Int.tdiv st.old_r st.r * st.r)).isSome ∧
  (chk (st.old_r - Int.tdiv st.old_r st.r * st.r)).isSome ∧
  (chk (Int.tdiv st.old_r st.r * st.s)).isSome ∧
  (chk (st.old_s - Int.tdiv st.old_r st.r * st.s)).isSome ∧
  (chk (Int.tdiv st.old_r st.r * st.t)).isSome ∧
  (chk (st.old_t - Int.tdiv st.old_r st.r * st.t)).isSome

instance mult_inverse_step_fits_decidable (st : eea_state) :
    Decidable (mult_inverse_step_fits st) := by
  unfold mult_inverse_step_fits; infer_instance

/-- The loop of `mult_inverse` with checked arithmetic: an iteration one of
whose values does not fit ends the computation with `none`. -/
def mult_inverse_loop_chk (st : eea_state) : Option eea_state :=
  if st.r = 0 then some st
  else if mult_inverse_step_fits st then mult_inverse_loop_chk (mult_inverse_step_Z st)
  else none
termination_by st.r.natAbs
decreasing_by
  rename_i h _
  simp only [mult_inverse_step_Z]
  have hdef : st.old_r - Int.tdiv st.old_r st.r * st.r = Int.tmod st.old_r st.r := by
    rw [Int.tmod_def, Int.mul_comm]
  rw [hdef]
  have : (Int.tmod st.old_r st.r).natAbs = st.old_r.natAbs % st.r.natAbs := by
    generalize st.old_r = a
    generalize st.r = r
    cases a <;> cases r <;> simp [Int.tmod, Int.natAbs_ofNat, Int.natAbs_neg] <;> rfl
  rw [this]
  exact Nat.mod_lt _ (Int.natAbs_pos.mpr h)

/-- The function `mult_inverse` with checked arithmetic. -/
def mult_inverse_chk (x : Int) : Option Int :=
  (mult_inverse_loop_chk
    { r := SSS_P, old_r := x, s := 0, old_s := 1, t := 1, old_t := 0 }).bind
    (fun fin => if fin.old_s ≥ 0 then some (Int.tmod fin.old_s SSS_P) else NEG_MOD_chk fin.old_s)

/-- The last loop of `get_shares` with checked arithmetic. -/
def write_shares_chk (poly_coeffs : List Int) (min_reconstruction_shares : Int)
    (num_shares : Int) (shares : List share_t) : Option (List share_t) :=
  (List.range num_shares.toNat).foldl
    (fun acc (i : Nat) =>
      acc.bind (fun sh =>
        (chk ((i : Int) + 1)).bind (fun x =>
          (chk (min_reconstruction_shares - 1)).bind (fun d =>
            (evaluate_poly_chk x poly_coeffs d).bind (fun y =>
              some (sh.set i { x := x, y := y }))))))
    (some shares)

/-- The function `get_shares` with checked arithmetic; `none` also when the
list of random values ends inside a rejection loop, as in `get_shares`. -/
def get_shares_chk (secret min_reconstruction_shares num_shares : Int)
    (shares : List share_t) (rng : List Nat) : Option get_shares_result :=
  if num_shares < min_reconstruction_shares then
    some { ret := some (-1), shares := shares, rng := rng }
  else
    (if Int.tmod secret SSS_P < 0 then chk (Int.tmod secret SSS_P + SSS_P)
      else some (Int.tmod secret SSS_P)).bind
      (fun secret2 =>
        match draw_coeffs (min_reconstruction_shares - 1).toNat rng with
        | none => none
        | some (cs, rng1) =>
          (write_shares_chk (secret2 :: cs) min_reconstruction_shares num_shares shares).bind
            (fun out => some { ret := none, shares := out, rng := rng1 }))

/-- One factor of the inner loop of `combine_shares` with checked arithmetic;
`NEG_MOD(-xj)`, written twice in the source, is computed once. -/
def lagrange_factor_chk (xi xj : Int) : Option Int :=
  (chk (-xj)).bind (fun nx =>
    (NEG_MOD_chk nx).bind (fun a =>
      (chk (Int.tmod xi SSS_P + a)).bind (fun arg =>
        (mult_inverse_chk arg).bind (fun inv =>
          (chk (a * inv)).bind (fun m => some (Int.tmod m SSS_P))))))

/-- The inner loop of `combine_shares` with checked arithmetic. -/
def combine_inner_chk (num_shares : Int) (shares : List share_t) (i : Nat) : Option Int :=
  (List.range num_shares.toNat).foldl
    (fun acc j =>
      acc.bind (fun prod_res =>
        if j = i then some prod_res
        else
          (lagrange_factor_chk (shares.getD i ⟨0, 0⟩).x (shares.getD j ⟨0, 0⟩).x).bind
            (fun f => (chk (prod_res * f)).bind (fun m => some (Int.tmod m SSS_P)))))
    (some 1)

/-- The function `combine_shares` with checked arithmetic. -/
def combine_shares_chk (num_shares : Int) (shares : List share_t) : Option Int :=
  (List.range num_shares.toNat).foldl
    (fun acc i =>
      acc.bind (fun res =>
        (combine_inner_chk num_shares shares i).bind (fun prod_res =>
          (chk (prod_res * (shares.getD i ⟨0, 0⟩).y)).bind (fun m =>
            (chk (res + Int.tmod m SSS_P)).bind (fun r => some (Int.tmod r SSS_P))))))
    (some 0)

/-! ## Predicates used in the proofs -/

/-- Invariant of the `while` loop of `mult_inverse` started on `x`: the
remainders are nonnegative `int` values, `r` and `old_r` are the Bezout
combinations of `x` and `SSS_P` with the current coefficients, the coefficients
alternate in sign (`e` is the current sign) with the two determinant identities
of the extended Euclidean algorithm, and the coefficients stay small. -/
structure eea_inv (x : Int) (st : eea_state) : Prop where
  r_nonneg : 0 ≤ st.r
  old_r_nonneg : 0 ≤ st.old_r
  r_le : st.r ≤ 2147483647
  old_r_le : st.old_r ≤ 2147483647
  bezout_old : st.old_r = st.old_s * x + st.old_t * SSS_P
  bezout : st.r = st.s * x + st.t * SSS_P
  sign : ∃ e : Int, (e = 1 ∨ e = -1) ∧ 0 ≤ e * st.s ∧ e * st.old_s ≤ 0 ∧
    e * st.t ≤ 0 ∧ 0 ≤ e * st.old_t ∧
    e * (st.s * st.old_r - st.old_s * st.r) = SSS_P ∧
    e * (st.old_t * st.r - st.t * st.old_r) = x
  s_bound : -SSS_P ≤ st.s ∧ st.s ≤ SSS_P
  old_s_bound : -SSS_P ≤ st.old_s ∧ st.old_s ≤ SSS_P
  t_bound : -2147483647 ≤ st.t ∧ st.t ≤ 2147483647
  old_t_bound : -2147483647 ≤ st.old_t ∧ st.old_t ≤ 2147483647

/-- The modulus is a prime number, so the integers modulo `SSS_P` are a field. -/
instance fact_prime_SSS_P : Fact (Nat.Prime 32749) := ⟨by norm_num⟩

/-- The Lagrange formula at 0 of the specification, in the field of integers
modulo `SSS_P`: the sum over `i` of `y_i` times the product over `j != i` of
`(-x_j) * (x_i - x_j)⁻¹`. -/
def lagrange_at_zero (shares : List share_t) : ZMod 32749 :=
  ∑ i ∈ Finset.range shares.length,
    ((shares.getD i ⟨0, 0⟩).y : ZMod 32749) *
      ∏ j ∈ (Finset.range shares.length).erase i,
        (-((shares.getD j ⟨0, 0⟩).x : ZMod 32749)) *
          (((shares.getD i ⟨0, 0⟩).x : ZMod 32749) - ((shares.getD j ⟨0, 0⟩).x : ZMod 32749))⁻¹

/-- A share in the domain of the reconstruction: `x` in `[1, SSS_P - 1]` and
`y` in `[0, SSS_P)`. -/
def share_ok (sh : share_t) : Prop :=
  1 ≤ sh.x ∧ sh.x ≤ SSS_P - 1 ∧ 0 ≤ sh.y ∧ sh.y < SSS_P

instance share_ok_decidable (sh : share_t) : Decidable (share_ok sh) := by
  unfold share_ok; infer_instance

/-- The share that the last loop of `get_shares` writes at index `i`. -/
def share_of (poly_coeffs : List Int) (min_reconstruction_shares : Int) (i : Nat) : share_t :=
  { x := (i : Int) + 1
    y := evaluate_poly ((i : Int) + 1) poly_coeffs (c_sub min_reconstruction_shares 1) }

/-- One factor of the Lagrange formula at 0 in the field: `(-x_j) * (x_i - x_j)⁻¹`. -/
def lagrange_term (xi xj : Int) : ZMod 32749 :=
  (-(xj : ZMod 32749)) * ((xi : ZMod 32749) - (xj : ZMod 32749))⁻¹

/-- The weighted Lagrange sum of a list of shares, by recursion on the list: the
head contributes its weight times the product of its factors against the tail,
and every share of the tail gets the factor against the head into its weight. -/
def lagrange_list : (share_t → ZMod 32749) → List share_t → ZMod 32749
  | _, [] => 0
  | w, a :: l =>
    w a * (l.map (fun b => lagrange_term a.x b.x)).prod
      + lagrange_list (fun sh => w sh * lagrange_term sh.x a.x) l

/-! ## Machine arithmetic without overflow -/

theorem wrap32_of_range {z : Int} (h1 : -2147483648 ≤ z) (h2 : z ≤ 2147483647) :
    wrap32 z = z := by
  unfold wrap32; omega

theorem wrap32_range (z : Int) : -2147483648 ≤ wrap32 z ∧ wrap32 z ≤ 2147483647 := by
  unfold wrap32; omega

theorem c_mod_of_nonneg {a : Int} (h : 0 ≤ a) : c_mod a SSS_P = a % SSS_P :=
  Int.tmod_eq_emod h (by decide)

theorem c_mul_of_range {a b : Int} (h1 : -2147483648 ≤ a * b) (h2 : a * b ≤ 2147483647) :
    c_mul a b = a * b :=
  wrap32_of_range h1 h2

theorem c_add_of_range {a b : Int} (h1 : -2147483648 ≤ a + b) (h2 : a + b ≤ 2147483647) :
    c_add a b = a + b :=
  wrap32_of_range h1 h2

theorem c_sub_of_range {a b : Int} (h1 : -2147483648 ≤ a - b) (h2 : a - b ≤ 2147483647) :
    c_sub a b = a - b :=
  wrap32_of_range h1 h2

/-- A product of a residue and a factor that fits: no overflow, and the C
remainder is the mathematical one. -/
theorem c_mod_c_mul_of_fit {n b : Int} (hn0 : 0 ≤ n) (hn : n < SSS_P) (hb : 0 ≤ b)
    (hfit : b * (SSS_P - 1) ≤ 2147483647) :
    c_mod (c_mul n b) SSS_P = (n * b) % SSS_P := by
  have h0 : 0 ≤ n * b := mul_nonneg hn0 hb
  have h1 : n * b ≤ 2147483647 := by
    have : n * b ≤ (SSS_P - 1) * b := mul_le_mul_of_nonneg_right (by omega) hb
    have h2 : (SSS_P - 1) * b = b * (SSS_P - 1) := mul_comm _ _
    omega
  rw [c_mul_of_range (by omega) h1, c_mod_of_nonneg h0]

/-! ## `power` -/

theorem power_loop_spec {b : Int} (hb : 0 ≤ b) (hfit : b * (SSS_P - 1) ≤ 2147483647) :
    ∀ (k : Nat) (n : Int), 0 ≤ n → n < SSS_P → power_loop b k n = (n * b ^ k) % SSS_P := by
  intro k
  induction k with
  | zero =>
    intro n hn0 hn
    simp only [power_loop, pow_zero, mul_one]
    exact (Int.emod_eq_of_lt hn0 hn).symm
  | succ k ih =>
    intro n hn0 hn
    simp only [power_loop]
    rw [c_mod_c_mul_of_fit hn0 hn hb hfit,
      ih _ (Int.emod_nonneg _ (by decide)) (Int.emod_lt_of_pos _ (by decide)),
      pow_succ', ← mul_assoc]
    exact (Int.mod_modEq (n * b) SSS_P).mul_right (b ^ k)

/-- C10: `power` is modular exponentiation.  For every base `b >= 0` with
`b * (SSS_P - 1)` within the `int` range and every exponent `e >= 0`,
`power b e` is `b ^ e mod SSS_P` and lies in `[0, SSS_P)`; and `power b 0 = 1`
for every base `b` whatsoever. -/
theorem power_spec :
    (∀ b e : Int, 0 ≤ b → b * (SSS_P - 1) ≤ 2147483647 → 0 ≤ e →
      power b e = b ^ e.toNat % SSS_P ∧ 0 ≤ power b e ∧ power b e < SSS_P) ∧
    (∀ b : Int, power b 0 = 1) := by
  refine ⟨?_, fun b => rfl⟩
  intro b e hb hfit _
  have h := power_loop_spec hb hfit e.toNat 1 (by decide) (by decide)
  rw [one_mul] at h
  refine ⟨h, ?_, ?_⟩
  · unfold power; rw [h]; exact Int.emod_nonneg _ (by decide)
  · unfold power; rw [h]; exact Int.emod_lt_of_pos _ (by decide)

/-- Witness of `power_spec` at base 3 and exponent 5. -/
theorem power_spec_witness :
    power 3 5 = 3 ^ (5 : Int).toNat % SSS_P ∧ 0 ≤ power 3 5 ∧ power 3 5 < SSS_P :=
  power_spec.1 3 5 (by decide) (by decide) (by decide)

/-! ## `mult_inverse` -/

theorem eea_inv_init {x : Int} (hx0 : 0 ≤ x) (hx : x ≤ 2147483647) :
    eea_inv x { r := SSS_P, old_r := x, s := 0, old_s := 1, t := 1, old_t := 0 } := by
  refine ⟨by norm_num, hx0, by norm_num, hx, by simp, by simp, ⟨-1, Or.inr rfl, ?_⟩,
    by norm_num, by norm_num, by norm_num, by norm_num⟩
  simp

theorem mult_inverse_step_inv {x : Int} (hx : x ≤ 2147483647) {st : eea_state}
    (h : eea_inv x st) (hr : st.r ≠ 0) : eea_inv x (mult_inverse_step st) := by
  obtain ⟨r, old_r, s, old_s, t, old_t⟩ := st
  obtain ⟨h1, h2, h3, h4, hb1, hb2, ⟨e, he, hs, hos, ht, hot, hdetS, hdetT⟩,
    hsb, hosb, htb, hotb⟩ := h
  simp only at h1 h2 h3 h4 hb1 hb2 hs hos ht hot hdetS hdetT hsb hosb htb hotb hr
  have hP : SSS_P = 32749 := rfl
  have hrpos : 0 < r := by omega
  have hq0 : 0 ≤ old_r / r := Int.ediv_nonneg h2 h1
  have hqr : old_r / r * r ≤ old_r := Int.ediv_mul_le _ hr
  have hmod : old_r - old_r / r * r = old_r % r := by rw [Int.emod_def]; ring
  have hmod0 := Int.emod_nonneg old_r hr
  have hmodlt := Int.emod_lt_of_pos old_r hrpos
  have hqle : old_r / r ≤ old_r := by nlinarith
  have hdiv : c_div old_r r = old_r / r := by
    unfold c_div
    rw [Int.tdiv_eq_ediv h2 h1]
    exact wrap32_of_range (by omega) (by omega)
  generalize old_r / r = q at hq0 hqr hmod hqle hdiv
  have hqr0 : 0 ≤ q * r := mul_nonneg hq0 h1
  -- the exact new coefficients and their signs
  have hS : 0 ≤ (-e) * (old_s - q * s) ∧ (-e) * (old_s - q * s) ≤ SSS_P ∧
      0 ≤ e * (q * s) ∧ e * (q * s) ≤ SSS_P := by
    have a1 : 0 ≤ q * (e * s) := mul_nonneg hq0 hs
    have a2 : (-e) * ((old_s - q * s) * r - s * (old_r - q * r)) = SSS_P := by
      rw [← hdetS]; ring
    have a3 : 0 ≤ (-e) * (old_s - q * s) := by
      have : (-e) * (old_s - q * s) = -(e * old_s) + q * (e * s) := by ring
      omega
    have a4 : 0 ≤ (e * s) * (old_r - q * r) := mul_nonneg hs (by omega)
    have a5 : (-e) * (old_s - q * s) ≤ (-e) * (old_s - q * s) * r :=
      le_mul_of_one_le_right a3 (by omega)
    have a6 : (-e) * (old_s - q * s) * r + (e * s) * (old_r - q * r) = SSS_P := by
      rw [← a2]; ring
    have a7 : (-e) * (old_s - q * s) = -(e * old_s) + q * (e * s) := by ring
    have a8 : e * (q * s) = q * (e * s) := by ring
    refine ⟨a3, by omega, by omega, by omega⟩
  have hT : (-e) * (old_t - q * t) ≤ 0 ∧ -x ≤ (-e) * (old_t - q * t) ∧
      e * (q * t) ≤ 0 ∧ -x ≤ e * (q * t) := by
    have a1 : q * (e * t) ≤ 0 := mul_nonpos_of_nonneg_of_nonpos hq0 ht
    have a2 : (-e) * (t * (old_r - q * r) - (old_t - q * t) * r) = x := by
      rw [← hdetT]; ring
    have a3 : 0 ≤ e * (old_t - q * t) := by
      have : e * (old_t - q * t) = e * old_t - q * (e * t) := by ring
      omega
    have a4 : 0 ≤ (-(e * t)) * (old_r - q * r) := mul_nonneg (by omega) (by omega)
    have a5 : e * (old_t - q * t) ≤ e * (old_t - q * t) * r :=
      le_mul_of_one_le_right a3 (by omega)
    have a6 : e * (old_t - q * t) * r + (-(e * t)) * (old_r - q * r) = x := by
      rw [← a2]; ring
    have a7 : e * (old_t - q * t) = e * old_t - q * (e * t) := by ring
    have a8 : e * (q * t) = q * (e * t) := by ring
    have a9 : (-e) * (old_t - q * t) = -(e * (old_t - q * t)) := by ring
    refine ⟨by omega, by omega, by omega, by omega⟩
  have hqs : -SSS_P ≤ q * s ∧ q * s ≤ SSS_P ∧ -SSS_P ≤ old_s - q * s ∧ old_s - q * s ≤ SSS_P := by
    obtain ⟨b1, b2, b3, b4⟩ := hS
    rcases he with rfl | rfl
    · simp only [one_mul, neg_mul] at b1 b2 b3 b4; omega
    · simp only [neg_neg, one_mul, neg_mul] at b1 b2 b3 b4; omega
  have hqt : -x ≤ q * t ∧ q * t ≤ x ∧ -x ≤ old_t - q * t ∧ old_t - q * t ≤ x := by
    obtain ⟨b1, b2, b3, b4⟩ := hT
    rcases he with rfl | rfl
    · simp only [one_mul, neg_mul] at b1 b2 b3 b4; omega
    · simp only [neg_neg, one_mul, neg_mul] at b1 b2 b3 b4; omega
  have e1 : c_sub old_r (c_mul (c_div old_r r) r) = old_r - q * r := by
    rw [hdiv, c_mul_of_range (by omega) (by omega), c_sub_of_range (by omega) (by omega)]
  have e2 : c_sub old_s (c_mul (c_div old_r r) s) = old_s - q * s := by
    rw [hdiv, c_mul_of_range (by omega) (by omega), c_sub_of_range (by omega) (by omega)]
  have e3 : c_sub old_t (c_mul (c_div old_r r) t) = old_t - q * t := by
    rw [hdiv, c_mul_of_range (by omega) (by omega), c_sub_of_range (by omega) (by omega)]
  simp only [mult_inverse_step, e1, e2, e3]
  refine ⟨?_, h1, ?_, h3, hb2, ?_, ⟨-e, ?_, hS.1, ?_, hT.1, ?_, ?_, ?_⟩,
    ⟨hqs.2.2.1, hqs.2.2.2⟩, hsb, ⟨?_, ?_⟩, htb⟩
  · show 0 ≤ old_r - q * r; omega
  · show old_r - q * r ≤ 2147483647; omega
  · show old_r - q * r = (old_s - q * s) * x + (old_t - q * t) * SSS_P
    rw [hb1, hb2]; ring
  · rcases he with rfl | rfl <;> simp
  · show -e * s ≤ 0; rw [neg_mul]; omega
  · show 0 ≤ -e * t; rw [neg_mul]; omega
  · show -e * ((old_s - q * s) * r - s * (old_r - q * r)) = SSS_P
    rw [← hdetS]; ring
  · show -e * (t * (old_r - q * r) - (old_t - q * t) * r) = x
    rw [← hdetT]; ring
  · show -2147483647 ≤ old_t - q * t; omega
  · show old_t - q * t ≤ 2147483647; omega

theorem mult_inverse_loop_inv {x : Int} (hx : x ≤ 2147483647) :
    ∀ st, eea_inv x st → eea_inv x (mult_inverse_loop st) ∧ (mult_inverse_loop st).r = 0 := by
  intro st
  induction st using mult_inverse_loop.induct with
  | case1 st h =>
    intro hi
    rw [mult_inverse_loop, if_pos h]
    exact ⟨hi, h⟩
  | case2 st h ih =>
    intro hi
    rw [mult_inverse_loop, if_neg h]
    exact ih (mult_inverse_step_inv hx hi h)

/-- A finite unrolling that ends with `r = 0` computes the loop. -/
theorem mult_inverse_unroll_sound :
    ∀ (k : Nat) (st fin : eea_state), mult_inverse_unroll k st = some fin →
      mult_inverse_loop st = fin := by
  intro k
  induction k with
  | zero =>
    intro st fin h
    by_cases hr : st.r = 0
    · rw [mult_inverse_loop, if_pos hr]
      simpa [mult_inverse_unroll, hr] using h
    · simp [mult_inverse_unroll, hr] at h
  | succ k ih =>
    intro st fin h
    by_cases hr : st.r = 0
    · rw [mult_inverse_loop, if_pos hr]
      simpa [mult_inverse_unroll, hr] using h
    · rw [mult_inverse_loop, if_neg hr]
      apply ih
      simpa [mult_inverse_unroll, hr] using h

theorem prime_SSS_P : Nat.Prime 32749 := by norm_num

/-- The value returned after the loop is the residue of `old_s`, unless `old_s`
is a negative multiple of `SSS_P`. -/
theorem mult_inverse_return (z : Int) (hz : 0 ≤ z ∨ z % SSS_P ≠ 0) :
    (if z ≥ 0 then c_mod z SSS_P else NEG_MOD z) = z % SSS_P := by
  by_cases h : z ≥ 0
  · rw [if_pos h]; exact c_mod_of_nonneg h
  · rw [if_neg h]
    have hneg : z < 0 := by omega
    have hnz : z % SSS_P ≠ 0 := by rcases hz with h0 | h0; exact absurd h0 h; exact h0
    have e1 : Int.tmod z SSS_P = z + SSS_P * ((-z) / SSS_P) := by
      have h1 : Int.tdiv z SSS_P = -((-z) / SSS_P) := by
        have : Int.tdiv (-(-z)) SSS_P = -(Int.tdiv (-z) SSS_P) := Int.neg_tdiv _ _
        rw [neg_neg] at this
        rw [this, Int.tdiv_eq_ediv (by omega) (by decide)]
      rw [Int.tmod_def, h1]; ring
    unfold NEG_MOD c_add c_mod
    rw [e1]
    have hP : SSS_P = 32749 := rfl
    rw [hP] at hnz ⊢
    rw [wrap32_of_range (by omega) (by omega)]
    omega

/-- Behaviour of `mult_inverse` on an argument that `SSS_P` does not divide:
the result is the inverse residue. -/
theorem mult_inverse_of_not_dvd {x : Int} (hx0 : 0 ≤ x) (hx : x ≤ 2147483647)
    (hnd : x % SSS_P ≠ 0) :
    0 ≤ mult_inverse x ∧ mult_inverse x < SSS_P ∧ (mult_inverse x * x) % SSS_P = 1 := by
  obtain ⟨hinv, hr0⟩ := mult_inverse_loop_inv hx _ (eea_inv_init hx0 hx)
  unfold mult_inverse
  simp only
  generalize mult_inverse_loop
    { r := SSS_P, old_r := x, s := 0, old_s := 1, t := 1, old_t := 0 } = fin at hinv hr0
  obtain ⟨r, old_r, s, old_s, t, old_t⟩ := fin
  obtain ⟨h1, h2, h3, h4, hb1, hb2, ⟨e, he, hs, hos, ht, hot, hdetS, hdetT⟩,
    hsb, hosb, htb, hotb⟩ := hinv
  simp only at h1 h2 h3 h4 hb1 hb2 hs hos ht hot hdetS hdetT hsb hosb htb hotb hr0
  subst hr0
  have hP : SSS_P = 32749 := rfl
  -- the last remainder divides both `SSS_P` and `x`
  have hdP : old_r ∣ SSS_P := ⟨e * s, by rw [← hdetS]; ring⟩
  have hdx : old_r ∣ x := ⟨-(e * t), by rw [← hdetT]; ring⟩
  have hcases : old_r = 1 ∨ old_r = SSS_P := by
    have hn : old_r.natAbs ∣ 32749 := by
      have h := Int.natAbs_dvd_natAbs.mpr hdP
      exact h
    rcases (Nat.dvd_prime prime_SSS_P).mp hn with h | h
    · left; omega
    · right; omega
  have hone : old_r = 1 := by
    rcases hcases with h | h
    · exact h
    · exfalso
      rw [h] at hdx
      exact hnd (Int.emod_eq_zero_of_dvd hdx)
  have hbez : old_s * x = 1 - old_t * SSS_P := by rw [hone] at hb1; omega
  have hsx : (old_s * x) % SSS_P = 1 := by
    rw [hbez, hP]; omega
  have hnz : old_s % SSS_P ≠ 0 := by
    intro h0
    have : (old_s * x) % SSS_P = 0 := by
      rw [Int.mul_emod, h0]; simp
    omega
  rw [mult_inverse_return old_s (Or.inr hnz)]
  refine ⟨Int.emod_nonneg _ (by decide), Int.emod_lt_of_pos _ (by decide), ?_⟩
  rw [← hsx]
  exact (Int.mod_modEq old_s SSS_P).mul_right x

theorem mult_inverse_eval_three : mult_inverse 3 = 21833 := by
  have h : mult_inverse_loop { r := SSS_P, old_r := 3, s := 0, old_s := 1, t := 1, old_t := 0 }
      = ⟨0, 1, 32749, -10916, -3, 1⟩ :=
    mult_inverse_unroll_sound 20 _ _ (by decide)
  unfold mult_inverse
  rw [h]
  decide

theorem mult_inverse_eval_P : mult_inverse SSS_P = 0 := by
  have h : mult_inverse_loop
        { r := SSS_P, old_r := SSS_P, s := 0, old_s := 1, t := 1, old_t := 0 }
      = ⟨0, 32749, 1, 0, -1, 1⟩ :=
    mult_inverse_unroll_sound 20 _ _ (by decide)
  unfold mult_inverse
  rw [h]
  decide

/-- C9: `mult_inverse` is a modular inverse.  For every `x` in `[1, SSS_P - 1]`
the result lies in `[0, SSS_P)`, its product with `x` is 1 modulo `SSS_P`, and it
is the only value of `[0, SSS_P)` with that property. -/
theorem mult_inverse_spec (x : Int) (h1 : 1 ≤ x) (h2 : x ≤ SSS_P - 1) :
    0 ≤ mult_inverse x ∧ mult_inverse x < SSS_P ∧ (mult_inverse x * x) % SSS_P = 1 ∧
    ∀ s : Int, 0 ≤ s → s < SSS_P → (s * x) % SSS_P = 1 → s = mult_inverse x := by
  have hP : SSS_P = 32749 := rfl
  have hnd : x % SSS_P ≠ 0 := by rw [hP]; omega
  obtain ⟨a, b, c⟩ := mult_inverse_of_not_dvd (by omega) (by omega) hnd
  refine ⟨a, b, c, ?_⟩
  intro s hs0 hs hsx
  have e1 : s * x ≡ 1 [ZMOD SSS_P] := hsx
  have e2 : mult_inverse x * x ≡ 1 [ZMOD SSS_P] := c
  have e3 : s ≡ mult_inverse x [ZMOD SSS_P] :=
    calc s = s * 1 := (mul_one s).symm
      _ ≡ s * (mult_inverse x * x) [ZMOD SSS_P] := e2.symm.mul_left s
      _ = mult_inverse x * (s * x) := by ring
      _ ≡ mult_inverse x * 1 [ZMOD SSS_P] := e1.mul_left _
      _ = mult_inverse x := mul_one _
  have e4 : s % SSS_P = mult_inverse x % SSS_P := e3
  rw [Int.emod_eq_of_lt hs0 hs, Int.emod_eq_of_lt a b] at e4
  exact e4

/-- Witness of `mult_inverse_spec` at `x = 3`, whose inverse is 21833. -/
theorem mult_inverse_spec_witness :
    mult_inverse 3 = 21833 ∧
    (0 ≤ mult_inverse 3 ∧ mult_inverse 3 < SSS_P ∧ (mult_inverse 3 * 3) % SSS_P = 1 ∧
      ∀ s : Int, 0 ≤ s → s < SSS_P → (s * 3) % SSS_P = 1 → s = mult_inverse 3) :=
  ⟨mult_inverse_eval_three, mult_inverse_spec 3 (by decide) (by decide)⟩

/-! ## Folds over an index range, residues and the field `ZMod 32749` -/

/-- Loop invariant rule for a `for` loop over `0 .. n-1`. -/
theorem foldl_range_invariant {α : Type} (f : α → Nat → α) (a0 : α) (n : Nat)
    (I : Nat → α → Prop) (h0 : I 0 a0)
    (hstep : ∀ k a, k < n → I k a → I (k + 1) (f a k)) :
    I n ((List.range n).foldl f a0) := by
  induction n with
  | zero => simpa using h0
  | succ n ih =>
    rw [List.range_succ, List.foldl_append]
    simp only [List.foldl_cons, List.foldl_nil]
    exact hstep n _ (Nat.lt_succ_self n)
      (ih (fun k a hk hI => hstep k a (Nat.lt_succ_of_lt hk) hI))

theorem tmod_of_small {z : Int} (h1 : -SSS_P < z) (h2 : z < SSS_P) : c_mod z SSS_P = z := by
  unfold c_mod
  by_cases h : 0 ≤ z
  · exact Int.tmod_eq_of_lt h h2
  · have h3 : Int.tdiv z SSS_P = 0 := by
      have e : Int.tdiv (-(-z)) SSS_P = -(Int.tdiv (-z) SSS_P) := Int.neg_tdiv _ _
      rw [neg_neg] at e
      rw [e, Int.tdiv_eq_zero_of_lt (by omega) (by omega)]
      rfl
    rw [Int.tmod_def, h3]; ring

theorem cast_emod (z : Int) : ((z % SSS_P : Int) : ZMod 32749) = (z : ZMod 32749) := by
  have h := ZMod.intCast_mod z 32749
  simpa using h

theorem cast_SSS_P : ((SSS_P : Int) : ZMod 32749) = 0 := by
  have h := (ZMod.intCast_zmod_eq_zero_iff_dvd SSS_P 32749).mpr (by simp)
  exact h

/-- Two residues with the same image in the field are equal. -/
theorem eq_of_cast_eq {a b : Int} (ha0 : 0 ≤ a) (ha : a < SSS_P) (hb0 : 0 ≤ b) (hb : b < SSS_P)
    (h : (a : ZMod 32749) = (b : ZMod 32749)) : a = b := by
  have h1 : a ≡ b [ZMOD ((32749 : Nat) : Int)] := (ZMod.intCast_eq_intCast_iff a b 32749).mp h
  have h2 : a % 32749 = b % 32749 := h1
  have hP : SSS_P = 32749 := rfl
  omega

/-- Product of two residues: no overflow. -/
theorem c_mod_c_mul_residues {a b : Int} (ha0 : 0 ≤ a) (ha : a < SSS_P) (hb0 : 0 ≤ b)
    (hb : b < SSS_P) : c_mod (c_mul a b) SSS_P = (a * b) % SSS_P := by
  have hP : SSS_P = 32749 := rfl
  exact c_mod_c_mul_of_fit ha0 ha hb0 (by rw [hP]; omega)

/-- The argument `SSS_P` apart, `mult_inverse` returns a residue on `[0, 2^31)`,
and it sends `SSS_P` to 0. -/
theorem mult_inverse_residue {b : Int} (hb0 : 0 ≤ b) (hb : b ≤ 2147483647)
    (h : b % SSS_P ≠ 0 ∨ b = SSS_P) :
    0 ≤ mult_inverse b ∧ mult_inverse b < SSS_P ∧
      ((mult_inverse b : Int) : ZMod 32749) = ((b : Int) : ZMod 32749)⁻¹ := by
  rcases h with h | h
  · obtain ⟨m0, m1, m2⟩ := mult_inverse_of_not_dvd hb0 hb h
    refine ⟨m0, m1, ?_⟩
    have e := congrArg (Int.cast : Int → ZMod 32749) m2
    rw [cast_emod] at e
    push_cast at e
    exact eq_inv_of_mul_eq_one_left e
  · subst h
    rw [mult_inverse_eval_P, cast_SSS_P]
    simp

/-- One factor of the inner loop of `combine_shares`, for x-coordinates in
`[1, SSS_P - 1]` (equal or not): a residue whose image in the field is
`(-x_j) * (x_i - x_j)⁻¹`, with the convention `0⁻¹ = 0`. -/
theorem lagrange_factor_spec {xi xj : Int} (hi1 : 1 ≤ xi) (hi2 : xi ≤ SSS_P - 1)
    (hj1 : 1 ≤ xj) (hj2 : xj ≤ SSS_P - 1) :
    0 ≤ lagrange_factor xi xj ∧ lagrange_factor xi xj < SSS_P ∧
      ((lagrange_factor xi xj : Int) : ZMod 32749)
        = (-(xj : ZMod 32749)) * ((xi : ZMod 32749) - (xj : ZMod 32749))⁻¹ := by
  have hP : SSS_P = 32749 := rfl
  have a1 : c_neg xj = -xj := wrap32_of_range (by omega) (by omega)
  have a2 : NEG_MOD (-xj) = SSS_P - xj := by
    unfold NEG_MOD
    rw [tmod_of_small (by omega) (by omega), c_add_of_range (by omega) (by omega)]
    ring
  have a3 : c_mod xi SSS_P = xi := tmod_of_small (by omega) (by omega)
  have a4 : c_add xi (SSS_P - xj) = xi + SSS_P - xj := by
    rw [c_add_of_range (by omega) (by omega)]; ring
  have hb : (xi + SSS_P - xj) % SSS_P ≠ 0 ∨ xi + SSS_P - xj = SSS_P := by
    rw [hP]; omega
  obtain ⟨m0, m1, m2⟩ := mult_inverse_residue (b := xi + SSS_P - xj) (by omega) (by omega) hb
  unfold lagrange_factor
  rw [a1, a2, a3, a4, c_mod_c_mul_residues (by omega) (by omega) m0 m1]
  refine ⟨Int.emod_nonneg _ (by decide), Int.emod_lt_of_pos _ (by decide), ?_⟩
  have hz : (32749 : ZMod 32749) = 0 := by exact_mod_cast ZMod.natCast_self 32749
  rw [cast_emod]
  push_cast
  rw [m2]
  push_cast
  rw [hz]
  simp

/-! ## `combine_shares` computes the Lagrange formula -/

theorem getD_share_ok {shares : List share_t} (hv : ∀ sh ∈ shares, share_ok sh) {k : Nat}
    (hk : k < shares.length) : share_ok (shares.getD k ⟨0, 0⟩) := by
  rw [List.getD_eq_getElem _ _ hk]
  exact hv _ (List.getElem_mem hk)

theorem combine_inner_spec (shares : List share_t) (hv : ∀ sh ∈ shares, share_ok sh)
    (i : Nat) (hi : i < shares.length) :
    0 ≤ combine_inner shares.length shares i ∧ combine_inner shares.length shares i < SSS_P ∧
      ((combine_inner shares.length shares i : Int) : ZMod 32749)
        = ∏ j ∈ (Finset.range shares.length).erase i,
            (-((shares.getD j ⟨0, 0⟩).x : ZMod 32749)) *
              (((shares.getD i ⟨0, 0⟩).x : ZMod 32749)
                - ((shares.getD j ⟨0, 0⟩).x : ZMod 32749))⁻¹ := by
  unfold combine_inner
  rw [Int.toNat_ofNat, ← Finset.filter_ne', Finset.prod_filter]
  apply foldl_range_invariant _ _ _
    (fun k a => 0 ≤ a ∧ a < SSS_P ∧ ((a : Int) : ZMod 32749)
      = ∏ j ∈ Finset.range k, if j ≠ i then
          (-((shares.getD j ⟨0, 0⟩).x : ZMod 32749)) *
            (((shares.getD i ⟨0, 0⟩).x : ZMod 32749)
              - ((shares.getD j ⟨0, 0⟩).x : ZMod 32749))⁻¹ else 1)
  · refine ⟨by decide, by decide, ?_⟩
    simp
  · intro k a hk ⟨ha0, ha1, ha2⟩
    rw [Finset.prod_range_succ]
    by_cases hki : k = i
    · simp only [hki, if_true, ne_eq, not_true_eq_false, if_false, mul_one]
      subst hki
      exact ⟨ha0, ha1, ha2⟩
    · obtain ⟨xi1, xi2, -, -⟩ := getD_share_ok hv hi
      obtain ⟨xk1, xk2, -, -⟩ := getD_share_ok hv hk
      obtain ⟨f0, f1, f2⟩ := lagrange_factor_spec xi1 xi2 xk1 xk2
      simp only [hki, if_false, ne_eq, not_false_eq_true, if_true]
      rw [c_mod_c_mul_residues ha0 ha1 f0 f1]
      refine ⟨Int.emod_nonneg _ (by decide), Int.emod_lt_of_pos _ (by decide), ?_⟩
      rw [cast_emod, Int.cast_mul, ha2, f2]

/-- The value of `combine_shares` on shares of the domain (equal x-coordinates
allowed): a residue whose image in the field is the Lagrange formula. -/
theorem combine_shares_cast (shares : List share_t) (hv : ∀ sh ∈ shares, share_ok sh) :
    0 ≤ combine_shares shares.length shares ∧ combine_shares shares.length shares < SSS_P ∧
      ((combine_shares shares.length shares : Int) : ZMod 32749) = lagrange_at_zero shares := by
  unfold combine_shares lagrange_at_zero
  rw [Int.toNat_ofNat]
  apply foldl_range_invariant _ _ _
    (fun k a => 0 ≤ a ∧ a < SSS_P ∧ ((a : Int) : ZMod 32749)
      = ∑ i ∈ Finset.range k, ((shares.getD i ⟨0, 0⟩).y : ZMod 32749) *
          ∏ j ∈ (Finset.range shares.length).erase i,
            (-((shares.getD j ⟨0, 0⟩).x : ZMod 32749)) *
              (((shares.getD i ⟨0, 0⟩).x : ZMod 32749)
                - ((shares.getD j ⟨0, 0⟩).x : ZMod 32749))⁻¹)
  · refine ⟨by decide, by decide, ?_⟩
    simp
  · intro k a hk ⟨ha0, ha1, ha2⟩
    obtain ⟨-, -, y0, y1⟩ := getD_share_ok hv hk
    obtain ⟨p0, p1, p2⟩ := combine_inner_spec shares hv k hk
    have hP : SSS_P = 32749 := rfl
    rw [Finset.sum_range_succ, c_mod_c_mul_residues p0 p1 y0 y1]
    have m0 := Int.emod_nonneg (combine_inner shares.length shares k * (shares.getD k ⟨0, 0⟩).y)
      (show SSS_P ≠ 0 by decide)
    have m1 := Int.emod_lt_of_pos
      (combine_inner shares.length shares k * (shares.getD k ⟨0, 0⟩).y)
      (show 0 < SSS_P by decide)
    rw [c_add_of_range (by omega) (by omega), c_mod_of_nonneg (by omega)]
    refine ⟨Int.emod_nonneg _ (by decide), Int.emod_lt_of_pos _ (by decide), ?_⟩
    rw [cast_emod, Int.cast_add, cast_emod, Int.cast_mul, ha2, p2, mul_comm]

/-! ## `evaluate_poly` -/

theorem power_residue {x : Int} (hx0 : 0 ≤ x) (hfit : x * (SSS_P - 1) ≤ 2147483647) (i : Nat) :
    0 ≤ power x i ∧ power x i < SSS_P ∧
      ((power x i : Int) : ZMod 32749) = (x : ZMod 32749) ^ i := by
  have h := power_loop_spec hx0 hfit i 1 (by decide) (by decide)
  rw [one_mul] at h
  unfold power
  rw [Int.toNat_ofNat, h]
  refine ⟨Int.emod_nonneg _ (by decide), Int.emod_lt_of_pos _ (by decide), ?_⟩
  rw [cast_emod, Int.cast_pow]

/-- The value of `evaluate_poly` on a point `x >= 0` with `x * (SSS_P - 1)`
within the `int` range and residues as coefficients: a residue whose image in
the field is the sum of the `c_i * x^i`. -/
theorem evaluate_poly_cast {x : Int} (hx0 : 0 ≤ x) (hfit : x * (SSS_P - 1) ≤ 2147483647)
    (c : List Int) (hc : ∀ a ∈ c, 0 ≤ a ∧ a < SSS_P) (hlen : c.length ≤ 2147483647)
    (d : Int) (hd : d + 1 = c.length) :
    0 ≤ evaluate_poly x c d ∧ evaluate_poly x c d < SSS_P ∧
      ((evaluate_poly x c d : Int) : ZMod 32749)
        = ∑ i ∈ Finset.range c.length, ((c.getD i 0 : Int) : ZMod 32749) * (x : ZMod 32749) ^ i := by
  have hP : SSS_P = 32749 := rfl
  unfold evaluate_poly
  rw [c_add_of_range (by omega) (by omega), hd, Int.toNat_ofNat]
  apply foldl_range_invariant _ _ _
    (fun k a => 0 ≤ a ∧ a < SSS_P ∧ ((a : Int) : ZMod 32749)
      = ∑ i ∈ Finset.range k, ((c.getD i 0 : Int) : ZMod 32749) * (x : ZMod 32749) ^ i)
  · refine ⟨by decide, by decide, ?_⟩
    simp
  · intro k a hk ⟨ha0, ha1, ha2⟩
    have hck : 0 ≤ c.getD k 0 ∧ c.getD k 0 < SSS_P := by
      rw [List.getD_eq_getElem _ _ hk]
      exact hc _ (List.getElem_mem hk)
    obtain ⟨p0, p1, p2⟩ := power_residue hx0 hfit k
    rw [Finset.sum_range_succ, c_mod_c_mul_residues hck.1 hck.2 p0 p1]
    have m0 := Int.emod_nonneg (c.getD k 0 * power x k) (show SSS_P ≠ 0 by decide)
    have m1 := Int.emod_lt_of_pos (c.getD k 0 * power x k) (show 0 < SSS_P by decide)
    rw [c_add_of_range (by omega) (by omega), c_mod_of_nonneg (by omega)]
    refine ⟨Int.emod_nonneg _ (by decide), Int.emod_lt_of_pos _ (by decide), ?_⟩
    rw [cast_emod, Int.cast_add, cast_emod, Int.cast_mul, ha2, p2]

/-! ## `get_shares` -/

theorem draw_coeff_spec : ∀ (rng : List Nat) (c : Int) (rest : List Nat),
    draw_coeff rng = some (c, rest) → 1 ≤ c ∧ c ≤ SSS_P - 1 := by
  intro rng
  induction rng with
  | nil => intro c rest h; simp [draw_coeff] at h
  | cons r rng ih =>
    intro c rest h
    unfold draw_coeff at h
    by_cases hr : c_mod (r : Int) SSS_P = 0
    · rw [if_pos hr] at h
      exact ih c rest h
    · rw [if_neg hr] at h
      simp only [Option.some.injEq, Prod.mk.injEq] at h
      obtain ⟨h1, -⟩ := h
      rw [c_mod_of_nonneg (Int.ofNat_nonneg r)] at h1 hr
      have hP : SSS_P = 32749 := rfl
      rw [hP] at h1 hr ⊢
      omega

/-- An outcome of the coefficient draw: `k` coefficients, each in
`[1, SSS_P - 1]`. -/
theorem draw_coeffs_spec : ∀ (k : Nat) (rng : List Nat) (cs : List Int) (rest : List Nat),
    draw_coeffs k rng = some (cs, rest) →
      cs.length = k ∧ ∀ c ∈ cs, 1 ≤ c ∧ c ≤ SSS_P - 1 := by
  intro k
  induction k with
  | zero =>
    intro rng cs rest h
    simp only [draw_coeffs, Option.some.injEq, Prod.mk.injEq] at h
    obtain ⟨h1, -⟩ := h
    subst h1
    simp
  | succ k ih =>
    intro rng cs rest h
    unfold draw_coeffs at h
    cases h1 : draw_coeff rng with
    | none => rw [h1] at h; simp at h
    | some p =>
      obtain ⟨c, rng1⟩ := p
      rw [h1] at h
      simp only at h
      cases h2 : draw_coeffs k rng1 with
      | none => rw [h2] at h; simp at h
      | some q =>
        obtain ⟨cs1, rng2⟩ := q
        rw [h2] at h
        simp only [Option.some.injEq, Prod.mk.injEq] at h
        obtain ⟨h3, -⟩ := h
        subst h3
        obtain ⟨l1, l2⟩ := ih rng1 cs1 rng2 h2
        refine ⟨by simp [l1], ?_⟩
        intro a ha
        rcases List.mem_cons.mp ha with rfl | ha
        · exact draw_coeff_spec rng _ rng1 h1
        · exact l2 a ha

/-- The rejection loop ends as soon as the random source returns a value that is
not a multiple of `SSS_P`. -/
theorem draw_coeff_total : ∀ (rng : List Nat),
    0 < (rng.filter (fun r : Nat => decide (c_mod (r : Int) SSS_P ≠ 0))).length →
    ∃ c rest, draw_coeff rng = some (c, rest) ∧
      (rng.filter (fun r : Nat => decide (c_mod (r : Int) SSS_P ≠ 0))).length
        = (rest.filter (fun r : Nat => decide (c_mod (r : Int) SSS_P ≠ 0))).length + 1 := by
  intro rng
  induction rng with
  | nil => intro h; simp at h
  | cons r rng ih =>
    intro h
    unfold draw_coeff
    by_cases hr : c_mod (r : Int) SSS_P = 0
    · rw [if_pos hr]
      have hf : (List.filter (fun r : Nat => decide (c_mod (r : Int) SSS_P ≠ 0)) (r :: rng))
          = List.filter (fun r : Nat => decide (c_mod (r : Int) SSS_P ≠ 0)) rng := by
        rw [List.filter_cons_of_neg]
        simpa using hr
      rw [hf] at h ⊢
      exact ih h
    · rw [if_neg hr]
      refine ⟨_, _, rfl, ?_⟩
      rw [List.filter_cons_of_pos]
      · simp
      · simpa using hr

/-- The coefficient draw has an outcome whenever the random source returns at
least `k` values that are not multiples of `SSS_P`. -/
theorem draw_coeffs_total : ∀ (k : Nat) (rng : List Nat),
    k ≤ (rng.filter (fun r : Nat => decide (c_mod (r : Int) SSS_P ≠ 0))).length →
    ∃ cs rest, draw_coeffs k rng = some (cs, rest) := by
  intro k
  induction k with
  | zero => intro rng _; exact ⟨[], rng, rfl⟩
  | succ k ih =>
    intro rng h
    obtain ⟨c, rng1, h1, h2⟩ := draw_coeff_total rng (by omega)
    obtain ⟨cs, rest, h3⟩ := ih rng1 (by omega)
    refine ⟨c :: cs, rest, ?_⟩
    unfold draw_coeffs
    simp only [h1, h3]

/-- The last loop of `get_shares` on an array with room for `num_shares`
entries: the length is kept, entry `i < num_shares` becomes the share at
`x = i + 1`, the other entries are not touched. -/
theorem write_shares_spec (coeffs : List Int) (t n : Int) (shares : List share_t)
    (hn : n ≤ 2147483647) :
    (write_shares coeffs t n shares).length = shares.length ∧
    (∀ i : Nat, i < n.toNat → i < shares.length →
      (write_shares coeffs t n shares)[i]?
        = some ⟨(i : Int) + 1, evaluate_poly ((i : Int) + 1) coeffs (c_sub t 1)⟩) ∧
    (∀ i : Nat, n.toNat ≤ i → (write_shares coeffs t n shares)[i]? = shares[i]?) := by
  unfold write_shares
  have key := foldl_range_invariant
    (fun (sh : List share_t) (i : Nat) =>
      sh.set i
        { x := c_add i 1
          y := evaluate_poly (c_add i 1) coeffs (c_sub t 1) })
    shares n.toNat
    (fun k sh => sh.length = shares.length ∧
      (∀ i : Nat, i < k → i < shares.length →
        sh[i]? = some ⟨(i : Int) + 1, evaluate_poly ((i : Int) + 1) coeffs (c_sub t 1)⟩) ∧
      (∀ i : Nat, k ≤ i → sh[i]? = shares[i]?))
    ⟨rfl, fun i hi => absurd hi (Nat.not_lt_zero i), fun i _ => rfl⟩
    (by
      intro k sh hk ⟨h1, h2, h3⟩
      have hk1 : c_add (k : Int) 1 = (k : Int) + 1 := c_add_of_range (by omega) (by omega)
      refine ⟨by rw [List.length_set, h1], ?_, ?_⟩
      · intro i hi hlen
        rw [List.getElem?_set]
        by_cases hki : k = i
        · subst hki
          rw [if_pos rfl, if_pos (by omega), hk1]
        · rw [if_neg hki]
          exact h2 i (by omega) hlen
      · intro i hi
        rw [List.getElem?_set, if_neg (by omega)]
        exact h3 i (by omega))
  exact key

/-! ## Reconstruction -/

open Polynomial in
/-- Interpolation: on shares of the domain with pairwise distinct x-coordinates
that lie on a polynomial of degree less than their number, the Lagrange formula
is the value of the polynomial at 0. -/
theorem lagrange_at_zero_eq_eval (shares : List share_t) (hv : ∀ sh ∈ shares, share_ok sh)
    (hnd : (shares.map (fun sh => sh.x)).Nodup) (f : Polynomial (ZMod 32749))
    (hdeg : f.degree < shares.length)
    (hf : ∀ sh ∈ shares, ((sh.y : Int) : ZMod 32749) = f.eval ((sh.x : Int) : ZMod 32749)) :
    lagrange_at_zero shares = f.eval 0 := by
  have hinj : Set.InjOn (fun i : Nat => (((shares.getD i ⟨0, 0⟩).x : Int) : ZMod 32749))
      (Finset.range shares.length : Finset Nat) := by
    intro i hi j hj hij
    have hi1 : i < shares.length := Finset.mem_range.mp hi
    have hj1 : j < shares.length := Finset.mem_range.mp hj
    obtain ⟨a1, a2, -, -⟩ := getD_share_ok hv hi1
    obtain ⟨b1, b2, -, -⟩ := getD_share_ok hv hj1
    have hP : SSS_P = 32749 := rfl
    have hx := eq_of_cast_eq (by omega) (by omega) (by omega) (by omega) hij
    rw [List.getD_eq_getElem _ _ hi1, List.getD_eq_getElem _ _ hj1] at hx
    have hi2 : i < (shares.map (fun sh => sh.x)).length := by simpa using hi1
    have hj2 : j < (shares.map (fun sh => sh.x)).length := by simpa using hj1
    have hx2 : (shares.map (fun sh => sh.x))[i] = (shares.map (fun sh => sh.x))[j] := by
      rw [List.getElem_map, List.getElem_map]; exact hx
    exact (hnd.getElem_inj_iff).mp hx2
  have hcard : f.degree < ((Finset.range shares.length).card : WithBot ℕ) := by
    rw [Finset.card_range]; exact hdeg
  have hfe := Lagrange.eq_interpolate_of_eval_eq
    (fun i : Nat => (((shares.getD i ⟨0, 0⟩).y : Int) : ZMod 32749)) hinj hcard
    (by
      intro i hi
      have hi1 : i < shares.length := Finset.mem_range.mp hi
      have hmem : shares.getD i ⟨0, 0⟩ ∈ shares := by
        rw [List.getD_eq_getElem _ _ hi1]; exact List.getElem_mem hi1
      exact (hf _ hmem).symm)
  rw [hfe, Lagrange.interpolate_apply, Polynomial.eval_finset_sum]
  unfold lagrange_at_zero
  refine Finset.sum_congr rfl (fun i _ => ?_)
  rw [eval_mul, eval_C, Lagrange.basis, eval_prod]
  congr 1
  refine Finset.prod_congr rfl (fun j _ => ?_)
  simp [Lagrange.basisDivisor, mul_comm]

open Polynomial in
/-- Reconstruction from a selection: the shares that `get_shares` writes at
pairwise different indices `idx` (each with `x = index + 1 <= SSS_P - 1`), at
least as many as there are coefficients, are combined into the constant
coefficient. -/
theorem combine_shares_selection (s : Int) (hs0 : 0 ≤ s) (hs : s < SSS_P) (cs : List Int)
    (hcs : ∀ c ∈ cs, 0 ≤ c ∧ c < SSS_P) (t : Int) (ht : t = (cs.length : Int) + 1)
    (idx : List Nat) (hnd : idx.Nodup) (hidx : ∀ k ∈ idx, (k : Int) + 1 ≤ SSS_P - 1)
    (hm : cs.length + 1 ≤ idx.length) :
    combine_shares (idx.map (share_of (s :: cs) t)).length (idx.map (share_of (s :: cs) t))
      = s := by
  have hP : SSS_P = 32749 := rfl
  have hcoef : ∀ a ∈ s :: cs, 0 ≤ a ∧ a < SSS_P := by
    intro a ha
    rcases List.mem_cons.mp ha with rfl | ha
    · exact ⟨hs0, hs⟩
    · exact hcs a ha
  have hlen : idx.length ≤ 32749 := by
    have hsub : idx ⊆ List.range 32749 := by
      intro k hk
      have := hidx k hk
      exact List.mem_range.mpr (by omega)
    have := (List.subperm_of_subset hnd hsub).length_le
    simpa using this
  have hev : ∀ k ∈ idx, 0 ≤ (share_of (s :: cs) t k).y ∧ (share_of (s :: cs) t k).y < SSS_P ∧
      (((share_of (s :: cs) t k).y : Int) : ZMod 32749)
        = ∑ i ∈ Finset.range (s :: cs).length,
            (((s :: cs).getD i 0 : Int) : ZMod 32749) * (((k : Int) + 1 : Int) : ZMod 32749) ^ i := by
    intro k hk
    have hk1 := hidx k hk
    have hd : c_sub t 1 = (cs.length : Int) := by
      rw [c_sub_of_range (by omega) (by omega), ht]; ring
    exact evaluate_poly_cast (by omega) (by rw [hP] at hk1 ⊢; omega) (s :: cs) hcoef
      (by simp only [List.length_cons]; omega) _
      (by rw [hd]; simp)
  have hv : ∀ sh ∈ idx.map (share_of (s :: cs) t), share_ok sh := by
    intro sh hsh
    obtain ⟨k, hk, rfl⟩ := List.mem_map.mp hsh
    have hk1 := hidx k hk
    obtain ⟨y0, y1, -⟩ := hev k hk
    exact ⟨by show (1 : Int) ≤ (k : Int) + 1; omega, hk1, y0, y1⟩
  have hxs : ((idx.map (share_of (s :: cs) t)).map (fun sh => sh.x)).Nodup := by
    rw [List.map_map]
    refine hnd.map ?_
    intro a b hab
    have : (a : Int) + 1 = (b : Int) + 1 := hab
    omega
  obtain ⟨c0, c1, c2⟩ := combine_shares_cast _ hv
  refine eq_of_cast_eq c0 c1 hs0 hs ?_
  rw [c2]
  have hdeg : (∑ i ∈ Finset.range (s :: cs).length,
      C (((s :: cs).getD i 0 : Int) : ZMod 32749) * X ^ i).degree
        < (((idx.map (share_of (s :: cs) t)).length : Nat) : WithBot ℕ) := by
    rw [Finset.sum_range]
    refine lt_of_lt_of_le (Polynomial.degree_sum_fin_lt _) ?_
    rw [List.length_map, List.length_cons]
    exact_mod_cast hm
  rw [lagrange_at_zero_eq_eval _ hv hxs _ hdeg]
  · rw [Polynomial.eval_finset_sum, List.length_cons, Finset.sum_range_succ']
    simp
  · intro sh hsh
    obtain ⟨k, hk, rfl⟩ := List.mem_map.mp hsh
    obtain ⟨-, -, y2⟩ := hev k hk
    rw [y2, Polynomial.eval_finset_sum]
    refine Finset.sum_congr rfl (fun i _ => ?_)
    simp [share_of]

/-! ## `get_shares` followed by `combine_shares` -/

theorem c_mod_eq_ite (z : Int) :
    c_mod z SSS_P = if 0 ≤ z then z % 32749 else -((-z) % 32749) := by
  by_cases h : 0 ≤ z
  · rw [if_pos h]; exact c_mod_of_nonneg h
  · rw [if_neg h]
    have h1 : Int.tdiv z SSS_P = -((-z) / SSS_P) := by
      have e : Int.tdiv (-(-z)) SSS_P = -(Int.tdiv (-z) SSS_P) := Int.neg_tdiv _ _
      rw [neg_neg] at e
      rw [e, Int.tdiv_eq_ediv (by omega) (by decide)]
    unfold c_mod
    rw [Int.tmod_def, h1]
    have hP : SSS_P = 32749 := rfl
    rw [hP]
    omega

/-- The two statements `secret %= SSS_P; if (secret < 0) secret += SSS_P;` of
`get_shares` compute the residue of the secret. -/
theorem secret_normalised (s : Int) :
    (if c_mod s SSS_P < 0 then c_add (c_mod s SSS_P) SSS_P else c_mod s SSS_P) = s % SSS_P := by
  have h := c_mod_eq_ite s
  have hP : SSS_P = 32749 := rfl
  by_cases h0 : 0 ≤ s
  · rw [if_pos h0] at h
    rw [if_neg (by rw [h]; omega), h]
  · rw [if_neg h0] at h
    by_cases h1 : c_mod s SSS_P < 0
    · rw [if_pos h1, c_add_of_range (by rw [h, hP]; omega) (by rw [h, hP]; omega), h, hP]
      rw [h] at h1
      omega
    · rw [if_neg h1, h]
      rw [h] at h1
      rw [hP]
      omega

/-- The success path of `get_shares`, for an outcome `cs` of the coefficient
draw: no `return` statement is executed and the array is filled from the
coefficient list `secret mod SSS_P :: cs`. -/
theorem get_shares_eq (s t n : Int) (shares : List share_t) (rng : List Nat) (cs : List Int)
    (rest : List Nat) (htn : ¬ n < t) (hdraw : draw_coeffs (t - 1).toNat rng = some (cs, rest)) :
    get_shares s t n shares rng
      = some { ret := none, shares := write_shares ((s % SSS_P) :: cs) t n shares, rng := rest } := by
  unfold get_shares
  rw [if_neg htn]
  simp only [hdraw, secret_normalised]

theorem foldl_range_congr {α : Type} (f g : α → Nat → α) (a0 : α) (n : Nat)
    (h : ∀ k, k < n → ∀ a, f a k = g a k) :
    (List.range n).foldl f a0 = (List.range n).foldl g a0 := by
  induction n with
  | zero => rfl
  | succ n ih =>
    rw [List.range_succ, List.foldl_append, List.foldl_append,
      ih (fun k hk a => h k (Nat.lt_succ_of_lt hk) a)]
    simp only [List.foldl_cons, List.foldl_nil]
    exact h n (Nat.lt_succ_self n) _

/-- `combine_shares(n, shares)` reads the entries `0 .. n-1` only. -/
theorem combine_shares_congr (n : Nat) (l1 l2 : List share_t)
    (h : ∀ k, k < n → l1.getD k ⟨0, 0⟩ = l2.getD k ⟨0, 0⟩) :
    combine_shares n l1 = combine_shares n l2 := by
  have hin : ∀ i, i < n → combine_inner n l1 i = combine_inner n l2 i := by
    intro i hi
    unfold combine_inner
    rw [Int.toNat_ofNat]
    apply foldl_range_congr
    intro k hk a
    rw [h k hk, h i hi]
  unfold combine_shares
  rw [Int.toNat_ofNat]
  apply foldl_range_congr
  intro k hk a
  rw [h k hk, hin k hk]

/-- The entries that `get_shares` writes, read back with the default of
`combine_shares`. -/
theorem write_shares_getD (coeffs : List Int) (t n : Int) (shares : List share_t)
    (hn : n ≤ 2147483647) (hroom : n.toNat ≤ shares.length) (k : Nat) (hk : k < n.toNat) :
    (write_shares coeffs t n shares).getD k ⟨0, 0⟩ = share_of coeffs t k := by
  obtain ⟨-, h2, -⟩ := write_shares_spec coeffs t n shares hn
  have h := h2 k hk (by omega)
  rw [List.getD_eq_getElem?_getD, h]
  rfl

/-- C1: round trip with all shares.  For every secret `s` in `[0, SSS_P)`, every
`1 <= t <= n <= SSS_P - 1`, every array with room for `n` shares and every
outcome `cs` of the coefficient draw, `get_shares` takes its success path and
`combine_shares n` applied to the array it leaves returns `s`. -/
theorem get_shares_combine_all (s t n : Int) (shares : List share_t) (rng : List Nat)
    (cs : List Int) (rest : List Nat)
    (hs0 : 0 ≤ s) (hs : s < SSS_P) (ht : 1 ≤ t) (htn : t ≤ n) (hn : n ≤ SSS_P - 1)
    (hroom : n.toNat ≤ shares.length)
    (hdraw : draw_coeffs (t - 1).toNat rng = some (cs, rest)) :
    ∃ out, get_shares s t n shares rng = some { ret := none, shares := out, rng := rest } ∧
      combine_shares n out = s := by
  have hP : SSS_P = 32749 := rfl
  refine ⟨_, get_shares_eq s t n shares rng cs rest (by omega) hdraw, ?_⟩
  rw [Int.emod_eq_of_lt hs0 hs]
  obtain ⟨hlen, hc⟩ := draw_coeffs_spec _ _ _ _ hdraw
  have hsel := combine_shares_selection s hs0 hs cs
    (fun c hc1 => ⟨by have := hc c hc1; omega, by have := hc c hc1; omega⟩) t (by omega)
    (List.range n.toNat) (List.nodup_range _)
    (fun k hk => by have := List.mem_range.mp hk; omega)
    (by rw [List.length_range]; omega)
  rw [List.length_map, List.length_range] at hsel
  have hnn : ((n.toNat : Nat) : Int) = n := Int.toNat_of_nonneg (by omega)
  have e := combine_shares_congr n.toNat (write_shares (s :: cs) t n shares)
    ((List.range n.toNat).map (share_of (s :: cs) t))
    (by
      intro k hk
      rw [write_shares_getD _ _ _ _ (by omega) hroom k hk,
        List.getD_eq_getElem _ _ (by simpa using hk)]
      simp)
  rw [hnn] at e hsel
  exact e.trans hsel

/-- Witness of `get_shares_combine_all`: secret 1234, threshold 3, 5 shares, the
random source returning 3 and 3. -/
theorem get_shares_combine_all_witness :
    ∃ out, get_shares 1234 3 5 (List.replicate 5 ⟨0, 0⟩) [3, 3]
        = some { ret := none, shares := out, rng := [] } ∧
      combine_shares 5 out = 1234 :=
  get_shares_combine_all 1234 3 5 (List.replicate 5 ⟨0, 0⟩) [3, 3] [3, 3] []
    (by decide) (by decide) (by decide) (by decide) (by decide) (by decide) (by decide)

/-- C2: any qualifying subset reconstructs.  For every secret `s` in
`[0, SSS_P)`, every `1 <= t <= n <= SSS_P - 1` and every outcome of the
coefficient draw, `combine_shares` applied to the shares found at any pairwise
different positions `idx` of the array left by `get_shares`, at least `t` of
them, returns `s`; so all such selections return the same value. -/
theorem get_shares_combine_subset (s t n : Int) (shares : List share_t) (rng : List Nat)
    (cs : List Int) (rest : List Nat)
    (hs0 : 0 ≤ s) (hs : s < SSS_P) (ht : 1 ≤ t) (htn : t ≤ n) (hn : n ≤ SSS_P - 1)
    (hroom : n.toNat ≤ shares.length)
    (hdraw : draw_coeffs (t - 1).toNat rng = some (cs, rest)) :
    ∃ out, get_shares s t n shares rng = some { ret := none, shares := out, rng := rest } ∧
      ∀ idx : List Nat, idx.Nodup → (∀ k ∈ idx, k < n.toNat) → t.toNat ≤ idx.length →
        combine_shares idx.length (idx.map (fun k => out.getD k ⟨0, 0⟩)) = s := by
  have hP : SSS_P = 32749 := rfl
  refine ⟨_, get_shares_eq s t n shares rng cs rest (by omega) hdraw, ?_⟩
  intro idx hnd hidx hm
  rw [Int.emod_eq_of_lt hs0 hs]
  obtain ⟨hlen, hc⟩ := draw_coeffs_spec _ _ _ _ hdraw
  have hsel := combine_shares_selection s hs0 hs cs
    (fun c hc1 => ⟨by have := hc c hc1; omega, by have := hc c hc1; omega⟩) t (by omega)
    idx hnd (fun k hk => by have := hidx k hk; omega) (by omega)
  rw [List.length_map] at hsel
  have hmap : idx.map (fun k => (write_shares (s :: cs) t n shares).getD k ⟨0, 0⟩)
      = idx.map (share_of (s :: cs) t) := by
    apply List.map_congr_left
    intro k hk
    exact write_shares_getD _ _ _ _ (by omega) hroom k (hidx k hk)
  rw [hmap, hsel]

/-- Witness of `get_shares_combine_subset`: secret 1234, threshold 3, 5 shares,
the random source returning 3 and 3; the array left by `get_shares` is known,
and both `shares[0..3)` and `shares[2..5)` are combined into 1234. -/
theorem get_shares_combine_subset_witness :
    get_shares 1234 3 5 (List.replicate 5 ⟨0, 0⟩) [3, 3]
      = some { ret := none
               shares := [⟨1, 1240⟩, ⟨2, 1252⟩, ⟨3, 1270⟩, ⟨4, 1294⟩, ⟨5, 1324⟩]
               rng := [] } ∧
    combine_shares 3 [⟨1, 1240⟩, ⟨2, 1252⟩, ⟨3, 1270⟩] = 1234 ∧
    combine_shares 3 [⟨3, 1270⟩, ⟨4, 1294⟩, ⟨5, 1324⟩] = 1234 := by
  obtain ⟨out, h1, h2⟩ := get_shares_combine_subset 1234 3 5 (List.replicate 5 ⟨0, 0⟩)
    [3, 3] [3, 3] [] (by decide) (by decide) (by decide) (by decide) (by decide) (by decide)
    (by decide)
  have hout : get_shares 1234 3 5 (List.replicate 5 ⟨0, 0⟩) [3, 3]
      = some { ret := none
               shares := [⟨1, 1240⟩, ⟨2, 1252⟩, ⟨3, 1270⟩, ⟨4, 1294⟩, ⟨5, 1324⟩]
               rng := [] } := by decide
  rw [hout] at h1
  simp only [Option.some.injEq, get_shares_result.mk.injEq, true_and, and_true] at h1
  subst h1
  exact ⟨hout, h2 [0, 1, 2] (by decide) (by decide) (by decide),
    h2 [2, 3, 4] (by decide) (by decide) (by decide)⟩

/-- C3: `combine_shares` computes the Lagrange formula at 0.  For every list of
shares with x-coordinates in `[1, SSS_P - 1]`, pairwise distinct, and
y-coordinates in `[0, SSS_P)`, the result lies in `[0, SSS_P)` and represents
the sum over `i` of `y_i * prod_{j != i} (-x_j) * (x_i - x_j)⁻¹` in the field of
integers modulo `SSS_P`; and for every polynomial `f` over that field of degree
less than the number of shares with `y_i = f(x_i)` for all shares, the result
represents `f(0)`. -/
theorem combine_shares_lagrange (shares : List share_t) (hv : ∀ sh ∈ shares, share_ok sh)
    (hnd : (shares.map (fun sh => sh.x)).Nodup) :
    0 ≤ combine_shares shares.length shares ∧ combine_shares shares.length shares < SSS_P ∧
    ((combine_shares shares.length shares : Int) : ZMod 32749) = lagrange_at_zero shares ∧
    ∀ f : Polynomial (ZMod 32749), f.degree < shares.length →
      (∀ sh ∈ shares, ((sh.y : Int) : ZMod 32749) = f.eval ((sh.x : Int) : ZMod 32749)) →
      ((combine_shares shares.length shares : Int) : ZMod 32749) = f.eval 0 := by
  obtain ⟨c0, c1, c2⟩ := combine_shares_cast shares hv
  refine ⟨c0, c1, c2, ?_⟩
  intro f hdeg hf
  rw [c2]
  exact lagrange_at_zero_eq_eval shares hv hnd f hdeg hf

/-- Witness of `combine_shares_lagrange` on the shares `(1, 1240)`, `(2, 1252)`,
`(3, 1270)`. -/
theorem combine_shares_lagrange_witness :
    0 ≤ combine_shares 3 [⟨1, 1240⟩, ⟨2, 1252⟩, ⟨3, 1270⟩] ∧
    combine_shares 3 [⟨1, 1240⟩, ⟨2, 1252⟩, ⟨3, 1270⟩] < SSS_P ∧
    ((combine_shares 3 [⟨1, 1240⟩, ⟨2, 1252⟩, ⟨3, 1270⟩] : Int) : ZMod 32749)
      = lagrange_at_zero [⟨1, 1240⟩, ⟨2, 1252⟩, ⟨3, 1270⟩] ∧
    ∀ f : Polynomial (ZMod 32749), f.degree < (3 : Nat) →
      (∀ sh ∈ ([⟨1, 1240⟩, ⟨2, 1252⟩, ⟨3, 1270⟩] : List share_t),
        ((sh.y : Int) : ZMod 32749) = f.eval ((sh.x : Int) : ZMod 32749)) →
      ((combine_shares 3 [⟨1, 1240⟩, ⟨2, 1252⟩, ⟨3, 1270⟩] : Int) : ZMod 32749) = f.eval 0 :=
  combine_shares_lagrange [⟨1, 1240⟩, ⟨2, 1252⟩, ⟨3, 1270⟩] (by decide) (by decide)

/-- C4: `get_shares` executes `return -1` exactly when
`num_shares < min_reconstruction_shares`, whatever the secret, the array and
the random source; it then leaves the array as it was and consumes no random
value.  On every other path no `return -1` is executed. -/
theorem get_shares_fails_iff (s t n : Int) (shares : List share_t) (rng : List Nat) :
    (get_shares s t n shares rng = some { ret := some (-1), shares := shares, rng := rng }
      ↔ n < t) ∧
    (∀ res, get_shares s t n shares rng = some res → (res.ret = some (-1) ↔ n < t)) := by
  by_cases h : n < t
  · have e : get_shares s t n shares rng
        = some { ret := some (-1), shares := shares, rng := rng } := by
      unfold get_shares; rw [if_pos h]
    refine ⟨⟨fun _ => h, fun _ => e⟩, ?_⟩
    intro res hres
    rw [e] at hres
    simp only [Option.some.injEq] at hres
    subst hres
    exact ⟨fun _ => h, fun _ => rfl⟩
  · cases hd : draw_coeffs (t - 1).toNat rng with
    | none =>
      have e : get_shares s t n shares rng = none := by
        unfold get_shares; rw [if_neg h]; simp only [hd]
      refine ⟨⟨fun hc => ?_, fun hlt => absurd hlt h⟩, fun res hres => ?_⟩
      · rw [e] at hc; cases hc
      · rw [e] at hres; cases hres
    | some p =>
      obtain ⟨cs, rest⟩ := p
      have e := get_shares_eq s t n shares rng cs rest h hd
      refine ⟨⟨fun hc => ?_, fun hlt => absurd hlt h⟩, fun res hres => ?_⟩
      · rw [e] at hc
        simp only [Option.some.injEq, get_shares_result.mk.injEq] at hc
        exact absurd hc.1 (by simp)
      · rw [e] at hres
        simp only [Option.some.injEq] at hres
        subst hres
        exact ⟨fun hc => absurd hc (by simp), fun hlt => absurd hlt h⟩

/-- Witness of `get_shares_fails_iff`: `get_shares(100, 4, 2, shares)` returns
-1 and leaves the array and the random source as they were. -/
theorem get_shares_fails_iff_witness :
    get_shares 100 4 2 [⟨7, 8⟩, ⟨9, 10⟩] [5, 6, 7]
      = some { ret := some (-1), shares := [⟨7, 8⟩, ⟨9, 10⟩], rng := [5, 6, 7] } :=
  (get_shares_fails_iff 100 4 2 [⟨7, 8⟩, ⟨9, 10⟩] [5, 6, 7]).1.mpr (by decide)

/-- C6: secret normalisation.  For every integer secret `s` and all other
arguments equal, `get_shares` on `s` has the same outcome (return path, array,
random values left) as on `s mod SSS_P`, the value of `[0, SSS_P)` congruent to
`s`; the return path does not depend on the secret. -/
theorem get_shares_secret_normalised (s t n : Int) (shares : List share_t) (rng : List Nat) :
    get_shares s t n shares rng = get_shares (s % SSS_P) t n shares rng ∧
    0 ≤ s % SSS_P ∧ s % SSS_P < SSS_P ∧ (s % SSS_P - s) % SSS_P = 0 := by
  refine ⟨?_, Int.emod_nonneg _ (by decide), Int.emod_lt_of_pos _ (by decide), ?_⟩
  · unfold get_shares
    simp only [secret_normalised, Int.emod_emod_of_dvd s (dvd_refl SSS_P)]
  · have hP : SSS_P = 32749 := rfl
    rw [hP]; omega

/-- Witness of `get_shares_secret_normalised`: the secrets -5 and `SSS_P - 5`
with threshold 3, 5 shares and the random source returning 3 and 3 leave the
same array. -/
theorem get_shares_secret_normalised_witness :
    get_shares (-5) 3 5 (List.replicate 5 ⟨0, 0⟩) [3, 3]
      = get_shares (SSS_P - 5) 3 5 (List.replicate 5 ⟨0, 0⟩) [3, 3] ∧
    get_shares (-5) 3 5 (List.replicate 5 ⟨0, 0⟩) [3, 3]
      = some { ret := none
               shares := [⟨1, 1⟩, ⟨2, 13⟩, ⟨3, 31⟩, ⟨4, 55⟩, ⟨5, 85⟩]
               rng := [] } :=
  ⟨(get_shares_secret_normalised (-5) 3 5 (List.replicate 5 ⟨0, 0⟩) [3, 3]).1, by decide⟩

/-- Counterexample to C5 as stated (no bound on `num_shares`): with secret 0,
threshold 3, 89500 shares and the random source returning 1 and 1, the success
path of `get_shares` writes the share `(89500, -1846)` at index 89499: in
`power(89500, 2)` the product `24002 * 89500` leaves the `int` range, and the
y-coordinate is negative. -/
theorem get_shares_y_negative :
    ∃ out, get_shares 0 3 89500 (List.replicate 89500 ⟨0, 0⟩) [1, 1]
        = some { ret := none, shares := out, rng := [] } ∧
      out[89499]? = some ⟨89500, -1846⟩ := by
  refine ⟨_, get_shares_eq 0 3 89500 (List.replicate 89500 ⟨0, 0⟩) [1, 1] [1, 1] []
    (by decide) (by decide), ?_⟩
  obtain ⟨-, h2, -⟩ := write_shares_spec ((0 % SSS_P) :: [1, 1]) 3 89500
    (List.replicate 89500 ⟨0, 0⟩) (by decide)
  rw [h2 89499 (by decide) (by rw [List.length_replicate]; decide)]
  decide

/-- C5, amended: shape of the generated shares.  For every secret, every
`1 <= t <= n` (`n` an `int`), every array with room for `n` shares and every
outcome `cs` of the coefficient draw, `get_shares` takes its success path,
keeps the length of the array, leaves the entries from index `n` on as they
were and, for every `i < n`, writes at index `i` the share with `x = i + 1` and
`y = evaluate_poly(i + 1, [s mod SSS_P, cs...], t - 1)`; that `y` lies in
`[0, SSS_P)` whenever `(i + 1) * (SSS_P - 1)` is within the `int` range, that
is for `i + 1 <= 65576`. -/
theorem get_shares_shape (s t n : Int) (shares : List share_t) (rng : List Nat)
    (cs : List Int) (rest : List Nat)
    (ht : 1 ≤ t) (htn : t ≤ n) (hn : n ≤ 2147483647)
    (hroom : n.toNat ≤ shares.length)
    (hdraw : draw_coeffs (t - 1).toNat rng = some (cs, rest)) :
    ∃ out, get_shares s t n shares rng = some { ret := none, shares := out, rng := rest } ∧
      out.length = shares.length ∧
      (∀ i : Nat, i < n.toNat →
        out[i]? = some ⟨(i : Int) + 1,
          evaluate_poly ((i : Int) + 1) ((s % SSS_P) :: cs) (t - 1)⟩ ∧
        (((i : Int) + 1) * (SSS_P - 1) ≤ 2147483647 →
          0 ≤ evaluate_poly ((i : Int) + 1) ((s % SSS_P) :: cs) (t - 1) ∧
          evaluate_poly ((i : Int) + 1) ((s % SSS_P) :: cs) (t - 1) < SSS_P)) ∧
      (∀ i : Nat, n.toNat ≤ i → out[i]? = shares[i]?) := by
  have hP : SSS_P = 32749 := rfl
  refine ⟨_, get_shares_eq s t n shares rng cs rest (by omega) hdraw, ?_⟩
  obtain ⟨h1, h2, h3⟩ := write_shares_spec ((s % SSS_P) :: cs) t n shares hn
  obtain ⟨hlen, hc⟩ := draw_coeffs_spec _ _ _ _ hdraw
  have hsub : c_sub t 1 = t - 1 := c_sub_of_range (by omega) (by omega)
  rw [hsub] at h2
  refine ⟨h1, ?_, h3⟩
  intro i hi
  refine ⟨h2 i hi (by omega), ?_⟩
  intro hfit
  have hcoef : ∀ a ∈ (s % SSS_P) :: cs, 0 ≤ a ∧ a < SSS_P := by
    intro a ha
    rcases List.mem_cons.mp ha with rfl | ha
    · exact ⟨Int.emod_nonneg _ (by decide), Int.emod_lt_of_pos _ (by decide)⟩
    · have := hc a ha
      exact ⟨by omega, by omega⟩
  obtain ⟨y0, y1, -⟩ := evaluate_poly_cast (x := (i : Int) + 1) (by omega) hfit
    ((s % SSS_P) :: cs) hcoef
    (by simp only [List.length_cons]; omega) (t - 1)
    (by simp only [List.length_cons]; push_cast; omega)
  exact ⟨y0, y1⟩

/-- Witness of `get_shares_shape`: secret -7, threshold 2, 3 shares in an array
of 4 entries, the random source returning `SSS_P` (rejected), 10 and 11. -/
theorem get_shares_shape_witness :
    ∃ out, get_shares (-7) 2 3 [⟨0, 0⟩, ⟨0, 0⟩, ⟨0, 0⟩, ⟨8, 9⟩] [32749, 10, 11]
        = some { ret := none, shares := out, rng := [11] } ∧
      out.length = 4 ∧
      (∀ i : Nat, i < 3 →
        out[i]? = some ⟨(i : Int) + 1,
          evaluate_poly ((i : Int) + 1) (((-7) % SSS_P) :: [10]) (2 - 1)⟩ ∧
        (((i : Int) + 1) * (SSS_P - 1) ≤ 2147483647 →
          0 ≤ evaluate_poly ((i : Int) + 1) (((-7) % SSS_P) :: [10]) (2 - 1) ∧
          evaluate_poly ((i : Int) + 1) (((-7) % SSS_P) :: [10]) (2 - 1) < SSS_P)) ∧
      (∀ i : Nat, 3 ≤ i → out[i]? = ([⟨0, 0⟩, ⟨0, 0⟩, ⟨0, 0⟩, ⟨8, 9⟩] : List share_t)[i]?) :=
  get_shares_shape (-7) 2 3 [⟨0, 0⟩, ⟨0, 0⟩, ⟨0, 0⟩, ⟨8, 9⟩] [32749, 10, 11] [10] [11]
    (by decide) (by decide) (by decide) (by decide) (by decide)

/-! ## Equal x-coordinates -/

/-- Counterexample to C7: the list `(1, 5), (1, 7)` holds two shares with the
same x-coordinate and different y-coordinates, and `combine_shares` returns the
integer 0, the value it also returns on the single share `(1, 0)` of the
secret 0; no error is reported. -/
theorem combine_shares_duplicate_returns :
    combine_shares 2 [⟨1, 5⟩, ⟨1, 7⟩] = 0 ∧ combine_shares 1 [⟨1, 0⟩] = 0 := by
  refine ⟨?_, by decide⟩
  obtain ⟨c0, c1, c2⟩ := combine_shares_cast [⟨1, 5⟩, ⟨1, 7⟩] (by decide)
  have hz : lagrange_at_zero [⟨1, 5⟩, ⟨1, 7⟩] = 0 := by
    unfold lagrange_at_zero
    refine Finset.sum_eq_zero (fun i hi => ?_)
    have hi2 : i < 2 := Finset.mem_range.mp hi
    have hprod : ∏ j ∈ (Finset.range ([⟨1, 5⟩, ⟨1, 7⟩] : List share_t).length).erase i,
        (-((([⟨1, 5⟩, ⟨1, 7⟩] : List share_t).getD j ⟨0, 0⟩).x : ZMod 32749)) *
          (((([⟨1, 5⟩, ⟨1, 7⟩] : List share_t).getD i ⟨0, 0⟩).x : ZMod 32749)
            - ((([⟨1, 5⟩, ⟨1, 7⟩] : List share_t).getD j ⟨0, 0⟩).x : ZMod 32749))⁻¹ = 0 := by
      refine Finset.prod_eq_zero (i := 1 - i) ?_ ?_
      · rw [Finset.mem_erase, Finset.mem_range]
        exact ⟨by omega, by show 1 - i < 2; omega⟩
      · interval_cases i <;> simp
    rw [hprod, mul_zero]
  refine eq_of_cast_eq c0 c1 (by decide) (by decide) ?_
  exact (c2.trans hz).trans Int.cast_zero.symm

/-- C7, amended: `combine_shares` has no check for equal x-coordinates and no
error result.  For every list of shares with x-coordinates in `[1, SSS_P - 1]`
and y-coordinates in `[0, SSS_P)`, lists with equal x-coordinates and different
y-coordinates included, it returns an integer of `[0, SSS_P)`: the
representative of the Lagrange sum in which the inverse of `x_i - x_j = 0`
is 0. -/
theorem combine_shares_no_error (shares : List share_t) (hv : ∀ sh ∈ shares, share_ok sh) :
    0 ≤ combine_shares shares.length shares ∧ combine_shares shares.length shares < SSS_P ∧
    ((combine_shares shares.length shares : Int) : ZMod 32749) = lagrange_at_zero shares :=
  combine_shares_cast shares hv

/-- Witness of `combine_shares_no_error` on the shares `(1, 5)`, `(1, 7)`. -/
theorem combine_shares_no_error_witness :
    0 ≤ combine_shares 2 [⟨1, 5⟩, ⟨1, 7⟩] ∧ combine_shares 2 [⟨1, 5⟩, ⟨1, 7⟩] < SSS_P ∧
    ((combine_shares 2 [⟨1, 5⟩, ⟨1, 7⟩] : Int) : ZMod 32749)
      = lagrange_at_zero [⟨1, 5⟩, ⟨1, 7⟩] :=
  combine_shares_no_error [⟨1, 5⟩, ⟨1, 7⟩] (by decide)

/-! ## Fewer shares than the threshold -/

/-- C11: `evaluate_poly` evaluates the polynomial.  For every `x` in
`[0, SSS_P - 1]`, every degree `d >= 0` and every coefficient array `c[0..d]`
with entries in `[0, SSS_P)`, `evaluate_poly(x, c, d)` is the sum of the
`c[i] * x^i` for `i` from 0 to `d`, reduced modulo `SSS_P`, a value of
`[0, SSS_P)`; and `evaluate_poly(0, c, d)` is `c[0]`.  The number `d + 1` of
entries of the array is an `int`: the function is `static` and its only call,
in `get_shares`, passes `degree = t - 1` for an `int` `t` with an array of `t`
entries. -/
theorem evaluate_poly_spec (x : Int) (hx0 : 0 ≤ x) (hx : x ≤ SSS_P - 1) (c : List Int)
    (hc : ∀ a ∈ c, 0 ≤ a ∧ a < SSS_P) (d : Int) (hd0 : 0 ≤ d) (hdmax : d + 1 ≤ 2147483647)
    (hlen : (c.length : Int) = d + 1) :
    evaluate_poly x c d = (∑ i ∈ Finset.range c.length, c.getD i 0 * x ^ i) % SSS_P ∧
    0 ≤ evaluate_poly x c d ∧ evaluate_poly x c d < SSS_P ∧
    evaluate_poly 0 c d = c.getD 0 0 := by
  have hP : SSS_P = 32749 := rfl
  have key : ∀ z : Int, 0 ≤ z → z ≤ SSS_P - 1 →
      evaluate_poly z c d = (∑ i ∈ Finset.range c.length, c.getD i 0 * z ^ i) % SSS_P ∧
      0 ≤ evaluate_poly z c d ∧ evaluate_poly z c d < SSS_P := by
    intro z hz0 hz
    obtain ⟨e0, e1, e2⟩ := evaluate_poly_cast hz0 (by rw [hP] at hz ⊢; omega) c hc (by omega) d
      hlen.symm
    refine ⟨?_, e0, e1⟩
    refine eq_of_cast_eq e0 e1 (Int.emod_nonneg _ (by decide)) (Int.emod_lt_of_pos _ (by decide)) ?_
    rw [e2, cast_emod]
    push_cast
    rfl
  obtain ⟨k1, k2, k3⟩ := key x hx0 hx
  refine ⟨k1, k2, k3, ?_⟩
  obtain ⟨z1, -, -⟩ := key 0 (le_refl 0) (by decide)
  rw [z1]
  obtain ⟨a, l, rfl⟩ : ∃ a l, c = a :: l := by
    cases c with
    | nil => simp at hlen; omega
    | cons a l => exact ⟨a, l, rfl⟩
  have ha := hc a (List.mem_cons_self a l)
  rw [List.length_cons, Finset.sum_range_succ']
  simp only [pow_succ, mul_zero, Finset.sum_const_zero, pow_zero, mul_one, zero_add,
    List.getD_cons_zero]
  exact Int.emod_eq_of_lt ha.1 ha.2

/-- Witness of `evaluate_poly_spec`: the polynomial `5 + x + 3 x^2` at `x = 2`. -/
theorem evaluate_poly_spec_witness :
    evaluate_poly 2 [5, 1, 3] 2
      = (∑ i ∈ Finset.range ([5, 1, 3] : List Int).length, ([5, 1, 3] : List Int).getD i 0 * 2 ^ i)
        % SSS_P ∧
    0 ≤ evaluate_poly 2 [5, 1, 3] 2 ∧ evaluate_poly 2 [5, 1, 3] 2 < SSS_P ∧
    evaluate_poly 0 [5, 1, 3] 2 = ([5, 1, 3] : List Int).getD 0 0 :=
  evaluate_poly_spec 2 (by decide) (by decide) [5, 1, 3] (by decide) 2 (by decide) (by decide)
    (by decide)

/-! ## The x-coordinates of the shares -/

/-- Counterexample to C12 as stated (no bound on `num_shares`): with secret
1234, threshold 2, `SSS_P` shares and the random source returning 7,
`get_shares` does not fail and writes at index `SSS_P - 1` the share
`(SSS_P, 1234)`, whose x-coordinate is 0 modulo `SSS_P` (and whose y-coordinate
is the secret). -/
theorem get_shares_x_zero_mod_P :
    ∃ out, get_shares 1234 2 32749 (List.replicate 32749 ⟨0, 0⟩) [7]
        = some { ret := none, shares := out, rng := [] } ∧
      out[32748]? = some ⟨32749, 1234⟩ ∧ (32749 : Int) % SSS_P = 0 := by
  refine ⟨_, get_shares_eq 1234 2 32749 (List.replicate 32749 ⟨0, 0⟩) [7] [7] []
    (by decide) (by decide), ?_, by decide⟩
  obtain ⟨-, h2, -⟩ := write_shares_spec ((1234 % SSS_P) :: [7]) 2 32749
    (List.replicate 32749 ⟨0, 0⟩) (by decide)
  rw [h2 32748 (by decide) (by rw [List.length_replicate]; decide)]
  decide

/-- C12, amended: shares sit at distinct nonzero field points when
`num_shares <= SSS_P - 1`.  For every call of `get_shares` that takes the
success path (`t <= n`) with `n <= SSS_P - 1` on an array with room for `n`
shares, every index `i < n` holds a share with `x = i + 1`, which is not 0
modulo `SSS_P`, and the x-coordinates at two different indices below `n` are
different modulo `SSS_P`. -/
theorem get_shares_points_distinct (s t n : Int) (shares : List share_t) (rng : List Nat)
    (res : get_shares_result) (htn : t ≤ n) (hn : n ≤ SSS_P - 1)
    (hroom : n.toNat ≤ shares.length) (hres : get_shares s t n shares rng = some res) :
    (∀ i : Nat, i < n.toNat →
      ∃ sh, res.shares[i]? = some sh ∧ sh.x = (i : Int) + 1 ∧ sh.x % SSS_P ≠ 0) ∧
    (∀ i j : Nat, i < n.toNat → j < n.toNat → i ≠ j →
      ∀ shi shj, res.shares[i]? = some shi → res.shares[j]? = some shj →
        shi.x % SSS_P ≠ shj.x % SSS_P) := by
  have hP : SSS_P = 32749 := rfl
  have hshape : ∀ i : Nat, i < n.toNat →
      ∃ sh, res.shares[i]? = some sh ∧ sh.x = (i : Int) + 1 := by
    cases hd : draw_coeffs (t - 1).toNat rng with
    | none =>
      have e : get_shares s t n shares rng = none := by
        unfold get_shares; rw [if_neg (by omega)]; simp only [hd]
      rw [e] at hres; cases hres
    | some p =>
      obtain ⟨cs, rest⟩ := p
      rw [get_shares_eq s t n shares rng cs rest (by omega) hd] at hres
      simp only [Option.some.injEq] at hres
      subst hres
      obtain ⟨-, h2, -⟩ := write_shares_spec ((s % SSS_P) :: cs) t n shares (by omega)
      intro i hi
      exact ⟨_, h2 i hi (by omega), rfl⟩
  refine ⟨?_, ?_⟩
  · intro i hi
    obtain ⟨sh, h1, h2⟩ := hshape i hi
    refine ⟨sh, h1, h2, ?_⟩
    rw [h2, hP]
    omega
  · intro i j hi hj hij shi shj hsi hsj
    obtain ⟨sh1, a1, a2⟩ := hshape i hi
    obtain ⟨sh2, b1, b2⟩ := hshape j hj
    rw [hsi] at a1
    rw [hsj] at b1
    simp only [Option.some.injEq] at a1 b1
    subst a1 b1
    rw [a2, b2, hP]
    omega

/-- Witness of `get_shares_points_distinct`: secret 1234, threshold 3, 5
shares, the random source returning 3 and 3. -/
theorem get_shares_points_distinct_witness :
    (∀ i : Nat, i < 5 →
      ∃ sh, ([⟨1, 1240⟩, ⟨2, 1252⟩, ⟨3, 1270⟩, ⟨4, 1294⟩, ⟨5, 1324⟩] : List share_t)[i]? = some sh ∧
        sh.x = (i : Int) + 1 ∧ sh.x % SSS_P ≠ 0) ∧
    (∀ i j : Nat, i < 5 → j < 5 → i ≠ j →
      ∀ shi shj,
        ([⟨1, 1240⟩, ⟨2, 1252⟩, ⟨3, 1270⟩, ⟨4, 1294⟩, ⟨5, 1324⟩] : List share_t)[i]? = some shi →
        ([⟨1, 1240⟩, ⟨2, 1252⟩, ⟨3, 1270⟩, ⟨4, 1294⟩, ⟨5, 1324⟩] : List share_t)[j]? = some shj →
        shi.x % SSS_P ≠ shj.x % SSS_P) :=
  get_shares_points_distinct 1234 3 5 (List.replicate 5 ⟨0, 0⟩) [3, 3]
    { ret := none
      shares := [⟨1, 1240⟩, ⟨2, 1252⟩, ⟨3, 1270⟩, ⟨4, 1294⟩, ⟨5, 1324⟩]
      rng := [] }
    (by decide) (by decide) (by decide) (by decide)

/-! ## The coefficients drawn by `get_shares` -/

theorem draw_coeff_filter : ∀ (rng : List Nat) (c : Int) (rest : List Nat),
    draw_coeff rng = some (c, rest) →
      (rng.map (fun r : Nat => (r : Int) % SSS_P)).filter (fun c : Int => decide (c ≠ 0))
        = c :: (rest.map (fun r : Nat => (r : Int) % SSS_P)).filter
            (fun c : Int => decide (c ≠ 0)) := by
  intro rng
  induction rng with
  | nil => intro c rest h; simp [draw_coeff] at h
  | cons r rng ih =>
    intro c rest h
    unfold draw_coeff at h
    rw [c_mod_of_nonneg (Int.ofNat_nonneg r)] at h
    rw [List.map_cons]
    by_cases hr : (r : Int) % SSS_P = 0
    · rw [if_pos hr] at h
      rw [List.filter_cons_of_neg (by simpa using hr)]
      exact ih c rest h
    · rw [if_neg hr] at h
      simp only [Option.some.injEq, Prod.mk.injEq] at h
      obtain ⟨h1, h2⟩ := h
      subst h1 h2
      rw [List.filter_cons_of_pos (by simpa using hr)]

/-- The coefficients drawn are, in order, the first `k` nonzero residues of the
values returned by the random source. -/
theorem draw_coeffs_filter : ∀ (k : Nat) (rng : List Nat) (cs : List Int) (rest : List Nat),
    draw_coeffs k rng = some (cs, rest) →
      cs = ((rng.map (fun r : Nat => (r : Int) % SSS_P)).filter
        (fun c : Int => decide (c ≠ 0))).take k := by
  intro k
  induction k with
  | zero =>
    intro rng cs rest h
    simp only [draw_coeffs, Option.some.injEq, Prod.mk.injEq] at h
    rw [← h.1, List.take_zero]
  | succ k ih =>
    intro rng cs rest h
    unfold draw_coeffs at h
    cases h1 : draw_coeff rng with
    | none => rw [h1] at h; simp at h
    | some p =>
      obtain ⟨c, rng1⟩ := p
      rw [h1] at h
      simp only at h
      cases h2 : draw_coeffs k rng1 with
      | none => rw [h2] at h; simp at h
      | some q =>
        obtain ⟨cs1, rng2⟩ := q
        rw [h2] at h
        simp only [Option.some.injEq, Prod.mk.injEq] at h
        rw [← h.1, draw_coeff_filter rng c rng1 h1, List.take_succ_cons,
          ← ih rng1 cs1 rng2 h2]

open Polynomial in
/-- A coefficient list whose last entry is not 0 modulo `SSS_P` (or that has a
single entry) is a polynomial of degree exactly its length minus 1. -/
theorem natDegree_of_coeffs (a : List Int) (hne : a ≠ [])
    (hlast : 2 ≤ a.length → ((a.getD (a.length - 1) 0 : Int) : ZMod 32749) ≠ 0) :
    (∑ i ∈ Finset.range a.length,
      C ((a.getD i 0 : Int) : ZMod 32749) * X ^ i).natDegree = a.length - 1 := by
  have hpos : 0 < a.length := List.length_pos.mpr hne
  have hcoeff : ∀ m, m < a.length →
      (∑ i ∈ Finset.range a.length,
        C ((a.getD i 0 : Int) : ZMod 32749) * X ^ i).coeff m
        = ((a.getD m 0 : Int) : ZMod 32749) := by
    intro m hm
    rw [Polynomial.finset_sum_coeff]
    simp only [Polynomial.coeff_C_mul_X_pow]
    rw [Finset.sum_ite_eq, if_pos (Finset.mem_range.mpr hm)]
  have hdeg : (∑ i ∈ Finset.range a.length,
      C ((a.getD i 0 : Int) : ZMod 32749) * X ^ i).degree < (a.length : WithBot ℕ) := by
    rw [Finset.sum_range]
    exact Polynomial.degree_sum_fin_lt _
  by_cases h2 : 2 ≤ a.length
  · have hc := hcoeff (a.length - 1) (by omega)
    have hne0 : (∑ i ∈ Finset.range a.length,
        C ((a.getD i 0 : Int) : ZMod 32749) * X ^ i).coeff (a.length - 1) ≠ 0 := by
      rw [hc]; exact hlast h2
    have hp : (∑ i ∈ Finset.range a.length,
        C ((a.getD i 0 : Int) : ZMod 32749) * X ^ i) ≠ 0 := by
      intro h0
      rw [h0] at hne0
      simp at hne0
    have hlt := (Polynomial.natDegree_lt_iff_degree_lt hp).mpr hdeg
    have hle := Polynomial.le_natDegree_of_ne_zero hne0
    omega
  · have h1 : a.length = 1 := by omega
    rw [h1]
    simp

open Polynomial in
/-- C13: random coefficients are nonzero field elements.  For every list of
values returned by the random source that holds at least `t - 1` values not
divisible by `SSS_P`, every `t >= 1` and `n >= t`, `get_shares` takes its
success path with the coefficient list `secret mod SSS_P :: cs`, where `cs` is,
in order, the first `t - 1` nonzero residues `r mod SSS_P` of the values
returned (values that reduce to 0 are skipped); the list has `t` entries,
every entry of `cs` lies in `[1, SSS_P - 1]` and the polynomial has degree
exactly `t - 1`. -/
theorem get_shares_coefficients (s t n : Int) (shares : List share_t) (rng : List Nat)
    (ht : 1 ≤ t) (htn : t ≤ n)
    (henough : (t - 1).toNat
      ≤ (rng.filter (fun r : Nat => decide (c_mod (r : Int) SSS_P ≠ 0))).length) :
    ∃ cs rest, draw_coeffs (t - 1).toNat rng = some (cs, rest) ∧
      get_shares s t n shares rng
        = some { ret := none
                 shares := write_shares ((s % SSS_P) :: cs) t n shares
                 rng := rest } ∧
      0 ≤ s % SSS_P ∧ s % SSS_P < SSS_P ∧
      cs = ((rng.map (fun r : Nat => (r : Int) % SSS_P)).filter
        (fun c : Int => decide (c ≠ 0))).take (t - 1).toNat ∧
      (((s % SSS_P) :: cs).length : Int) = t ∧ (∀ c ∈ cs, 1 ≤ c ∧ c ≤ SSS_P - 1) ∧
      (∑ i ∈ Finset.range ((s % SSS_P) :: cs).length,
        C (((((s % SSS_P) :: cs).getD i 0 : Int)) : ZMod 32749) * X ^ i).natDegree
        = (t - 1).toNat := by
  have hP : SSS_P = 32749 := rfl
  obtain ⟨cs, rest, hdraw⟩ := draw_coeffs_total _ rng henough
  obtain ⟨hlen, hc⟩ := draw_coeffs_spec _ _ _ _ hdraw
  refine ⟨cs, rest, hdraw, get_shares_eq s t n shares rng cs rest (by omega) hdraw,
    Int.emod_nonneg _ (by decide), Int.emod_lt_of_pos _ (by decide),
    draw_coeffs_filter _ _ _ _ hdraw, ?_, hc, ?_⟩
  · simp only [List.length_cons, hlen]; push_cast; omega
  rw [natDegree_of_coeffs ((s % SSS_P) :: cs) (by simp)]
  · simp only [List.length_cons, hlen]; omega
  · intro h2
    simp only [List.length_cons] at h2 ⊢
    have hk : cs.length - 1 < cs.length := by omega
    rw [show cs.length + 1 - 1 = (cs.length - 1) + 1 by omega, List.getD_cons_succ,
      List.getD_eq_getElem _ _ hk]
    have hmem := hc _ (List.getElem_mem hk)
    intro h0
    have hdvd := (ZMod.intCast_zmod_eq_zero_iff_dvd _ 32749).mp h0
    have hmod := Int.emod_eq_zero_of_dvd hdvd
    simp only [Nat.cast_ofNat] at hmod
    omega

open Polynomial in
/-- Witness of `get_shares_coefficients`: threshold 3, the random source
returning `SSS_P` (skipped), 10, 0 (skipped), `SSS_P + 4` and 9; the
coefficients are 10 and 4. -/
theorem get_shares_coefficients_witness :
    draw_coeffs 2 [32749, 10, 0, 32753, 9] = some ([10, 4], [9]) ∧
    ∃ cs rest, draw_coeffs ((3 : Int) - 1).toNat [32749, 10, 0, 32753, 9] = some (cs, rest) ∧
      get_shares (-5) 3 4 (List.replicate 4 ⟨0, 0⟩) [32749, 10, 0, 32753, 9]
        = some { ret := none
                 shares := write_shares (((-5) % SSS_P) :: cs) 3 4 (List.replicate 4 ⟨0, 0⟩)
                 rng := rest } ∧
      0 ≤ (-5) % SSS_P ∧ (-5) % SSS_P < SSS_P ∧
      cs = ((([32749, 10, 0, 32753, 9] : List Nat).map (fun r : Nat => (r : Int) % SSS_P)).filter
        (fun c : Int => decide (c ≠ 0))).take ((3 : Int) - 1).toNat ∧
      ((((-5) % SSS_P) :: cs).length : Int) = 3 ∧ (∀ c ∈ cs, 1 ≤ c ∧ c ≤ SSS_P - 1) ∧
      (∑ i ∈ Finset.range (((-5) % SSS_P) :: cs).length,
        C ((((((-5) % SSS_P) :: cs).getD i 0 : Int)) : ZMod 32749) * X ^ i).natDegree
        = ((3 : Int) - 1).toNat :=
  ⟨by decide,
    get_shares_coefficients (-5) 3 4 (List.replicate 4 ⟨0, 0⟩) [32749, 10, 0, 32753, 9]
      (by decide) (by decide) (by decide)⟩

/-! ## `mult_inverse` on multiples of `SSS_P`, and termination -/

/-- On a multiple of `SSS_P` in `[0, 2^31)` the first iteration of the loop of
`mult_inverse` already yields `r = 0`, with `old_s = 0`. -/
theorem mult_inverse_step_of_dvd {x : Int} (hx0 : 0 ≤ x) (hx : x ≤ 2147483647)
    (hd : x % SSS_P = 0) :
    mult_inverse_step { r := SSS_P, old_r := x, s := 0, old_s := 1, t := 1, old_t := 0 }
      = { r := 0, old_r := SSS_P, s := 1, old_s := 0, t := -(x / SSS_P), old_t := 1 } := by
  have hP : SSS_P = 32749 := rfl
  have hk : x / SSS_P * SSS_P = x := Int.ediv_mul_cancel (Int.dvd_of_emod_eq_zero hd)
  have hk0 : 0 ≤ x / SSS_P := Int.ediv_nonneg hx0 (by decide)
  have hkx : x / SSS_P ≤ x := by rw [hP] at hk ⊢; omega
  have e0 : c_div x SSS_P = x / SSS_P := by
    unfold c_div
    rw [Int.tdiv_eq_ediv hx0 (by decide)]
    exact wrap32_of_range (by omega) (by omega)
  have e1 : c_mul (x / SSS_P) SSS_P = x := by
    rw [c_mul_of_range (by rw [hk]; omega) (by rw [hk]; omega), hk]
  have e2 : c_sub x x = 0 := by rw [c_sub_of_range (by omega) (by omega)]; omega
  have e3 : c_mul (x / SSS_P) 0 = 0 := by
    rw [c_mul_of_range (by rw [mul_zero]; decide) (by rw [mul_zero]; decide), mul_zero]
  have e4 : c_sub 1 0 = 1 := by decide
  have e5 : c_mul (x / SSS_P) 1 = x / SSS_P := by
    rw [c_mul_of_range (by rw [mul_one]; omega) (by rw [mul_one]; omega), mul_one]
  have e6 : c_sub 0 (x / SSS_P) = -(x / SSS_P) := by
    rw [c_sub_of_range (by omega) (by omega)]; omega
  simp only [mult_inverse_step, e0, e1, e2, e3, e4, e5, e6]

theorem mult_inverse_of_dvd {x : Int} (hx0 : 0 ≤ x) (hx : x ≤ 2147483647)
    (hd : x % SSS_P = 0) : mult_inverse x = 0 := by
  have hloop : mult_inverse_loop
        { r := SSS_P, old_r := x, s := 0, old_s := 1, t := 1, old_t := 0 }
      = { r := 0, old_r := SSS_P, s := 1, old_s := 0, t := -(x / SSS_P), old_t := 1 } := by
    rw [mult_inverse_loop, if_neg (show SSS_P ≠ 0 by decide),
      mult_inverse_step_of_dvd hx0 hx hd, mult_inverse_loop]
    exact if_pos rfl
  unfold mult_inverse
  rw [hloop]
  show (if (0 : Int) ≥ 0 then c_mod 0 SSS_P else NEG_MOD 0) = 0
  decide

/-- Two residues that are inverses of the same number modulo `SSS_P` are
equal. -/
theorem inverse_residue_unique {a b x : Int} (ha0 : 0 ≤ a) (ha : a < SSS_P) (hb0 : 0 ≤ b)
    (hb : b < SSS_P) (hax : (a * x) % SSS_P = 1) (hbx : (b * x) % SSS_P = 1) : a = b := by
  have e1 : a * x ≡ 1 [ZMOD SSS_P] := hax
  have e2 : b * x ≡ 1 [ZMOD SSS_P] := hbx
  have e3 : a ≡ b [ZMOD SSS_P] :=
    calc a = a * 1 := (mul_one a).symm
      _ ≡ a * (b * x) [ZMOD SSS_P] := e2.symm.mul_left a
      _ = b * (a * x) := by ring
      _ ≡ b * 1 [ZMOD SSS_P] := e1.mul_left _
      _ = b := mul_one _
  have e4 : a % SSS_P = b % SSS_P := e3
  rw [Int.emod_eq_of_lt ha0 ha, Int.emod_eq_of_lt hb0 hb] at e4
  exact e4

/-- C15: `mult_inverse` depends only on `x mod SSS_P`.  For every `int` value
`x >= 0`, `mult_inverse(x) = mult_inverse(x mod SSS_P)`, although the loop
starts on `x` itself. -/
theorem mult_inverse_mod (x : Int) (hx0 : 0 ≤ x) (hx : x ≤ 2147483647) :
    mult_inverse x = mult_inverse (x % SSS_P) := by
  have hP : SSS_P = 32749 := rfl
  have hm0 : 0 ≤ x % SSS_P := Int.emod_nonneg _ (by decide)
  have hm1 : x % SSS_P < SSS_P := Int.emod_lt_of_pos _ (by decide)
  by_cases hd : x % SSS_P = 0
  · rw [mult_inverse_of_dvd hx0 hx hd, hd]
    exact (mult_inverse_of_dvd (le_refl 0) (by decide) (by decide)).symm
  · obtain ⟨a0, a1, a2⟩ := mult_inverse_of_not_dvd hx0 hx hd
    obtain ⟨b0, b1, b2⟩ := mult_inverse_of_not_dvd hm0 (by omega)
      (show x % SSS_P % SSS_P ≠ 0 by rw [Int.emod_emod_of_dvd x (dvd_refl SSS_P)]; exact hd)
    refine inverse_residue_unique a0 a1 b0 b1 a2 ?_
    rw [← b2]
    exact (Int.mod_modEq x SSS_P).symm.mul_left _

/-- Witness of `mult_inverse_mod` at `x = SSS_P + 3`: the value is
`mult_inverse(3) = 21833`. -/
theorem mult_inverse_mod_witness :
    mult_inverse 32752 = mult_inverse (32752 % SSS_P) ∧ mult_inverse 32752 = 21833 := by
  have h := mult_inverse_mod 32752 (by decide) (by decide)
  refine ⟨h, ?_⟩
  rw [h, show (32752 : Int) % SSS_P = 3 by decide]
  exact mult_inverse_eval_three

/-- C18: zero has the sentinel inverse 0.  For every `int` value `x >= 0`,
`mult_inverse(x)` is 0 exactly when `x` is 0 modulo `SSS_P`; in that case
(`x = 0` and `x = SSS_P` included) the loop runs one iteration, ends with
`old_s = 0`, and 0 is returned as an ordinary value. -/
theorem mult_inverse_zero_iff (x : Int) (hx0 : 0 ≤ x) (hx : x ≤ 2147483647) :
    (mult_inverse x = 0 ↔ x % SSS_P = 0) ∧
    (x % SSS_P = 0 →
      mult_inverse_unroll 1 { r := SSS_P, old_r := x, s := 0, old_s := 1, t := 1, old_t := 0 }
        = some { r := 0, old_r := SSS_P, s := 1, old_s := 0, t := -(x / SSS_P), old_t := 1 }) := by
  refine ⟨⟨fun h0 => ?_, fun hd => mult_inverse_of_dvd hx0 hx hd⟩, fun hd => ?_⟩
  · by_contra hd
    obtain ⟨-, -, a2⟩ := mult_inverse_of_not_dvd hx0 hx hd
    rw [h0] at a2
    simp at a2
  · simp only [mult_inverse_unroll]
    rw [if_neg (show SSS_P ≠ 0 by decide), mult_inverse_step_of_dvd hx0 hx hd, if_pos rfl]

/-- Witness of `mult_inverse_zero_iff` at `x = 2 * SSS_P`. -/
theorem mult_inverse_zero_iff_witness :
    mult_inverse 65498 = 0 ∧
    ((mult_inverse 65498 = 0 ↔ (65498 : Int) % SSS_P = 0) ∧
    ((65498 : Int) % SSS_P = 0 →
      mult_inverse_unroll 1
          { r := SSS_P, old_r := 65498, s := 0, old_s := 1, t := 1, old_t := 0 }
        = some { r := 0, old_r := SSS_P, s := 1, old_s := 0, t := -(65498 / SSS_P),
                 old_t := 1 })) :=
  ⟨(mult_inverse_zero_iff 65498 (by decide) (by decide)).1.mpr (by decide),
    mult_inverse_zero_iff 65498 (by decide) (by decide)⟩

/-- Every iteration of the loop of `mult_inverse` makes the absolute value of
`r` strictly smaller, on every state. -/
theorem mult_inverse_step_decreases (st : eea_state) (h : st.r ≠ 0) :
    (mult_inverse_step st).r.natAbs < st.r.natAbs := by
  simp only [mult_inverse_step, c_sub, c_mul, c_div]
  generalize st.r = r at h
  generalize st.old_r = a
  have hdiv : r * Int.tdiv a r + Int.tmod a r = a := Int.tdiv_add_tmod a r
  have hlt : (Int.tmod a r).natAbs < r.natAbs := by
    have : (Int.tmod a r).natAbs = a.natAbs % r.natAbs := by
      cases a <;> cases r <;> simp [Int.tmod, Int.natAbs_ofNat, Int.natAbs_neg] <;> rfl
    rw [this]; exact Nat.mod_lt _ (Int.natAbs_pos.mpr h)
  have hX : wrap32 (Int.tdiv a r) * r
      = r * Int.tdiv a r - 4294967296 * ((Int.tdiv a r + 2147483648) / 4294967296 * r) := by
    have : wrap32 (Int.tdiv a r)
        = Int.tdiv a r - 4294967296 * ((Int.tdiv a r + 2147483648) / 4294967296) := by
      unfold wrap32; omega
    rw [this]; ring
  generalize wrap32 (Int.tdiv a r) * r = X at hX
  generalize (Int.tdiv a r + 2147483648) / 4294967296 * r = K at hX
  generalize r * Int.tdiv a r = Q at hX hdiv
  generalize Int.tmod a r = m at hdiv hlt
  unfold wrap32
  omega

/-- The loop reaches `r = 0` within `|r|` iterations. -/
theorem mult_inverse_unroll_total : ∀ (k : Nat) (st : eea_state), st.r.natAbs ≤ k →
    ∃ fin, mult_inverse_unroll k st = some fin ∧ fin.r = 0 := by
  intro k
  induction k with
  | zero =>
    intro st hst
    have hr : st.r = 0 := by omega
    exact ⟨st, by simp [mult_inverse_unroll, hr], hr⟩
  | succ k ih =>
    intro st hst
    by_cases hr : st.r = 0
    · exact ⟨st, by simp [mult_inverse_unroll, hr], hr⟩
    · have hdec := mult_inverse_step_decreases st hr
      obtain ⟨fin, h1, h2⟩ := ih (mult_inverse_step st) (by omega)
      exact ⟨fin, by simp only [mult_inverse_unroll, if_neg hr]; exact h1, h2⟩

/-- C20: the loop of `mult_inverse` terminates for every argument `x`,
positive, zero or negative.  Every iteration (the division `old_r / r` is only
executed under the guard `r != 0`) makes the absolute value of `r` strictly
smaller, and, started on `x`, the loop reaches `r = 0` after at most `SSS_P`
iterations, in the state that `mult_inverse_loop` returns. -/
theorem mult_inverse_terminates (x : Int) :
    (∀ st : eea_state, st.r ≠ 0 → (mult_inverse_step st).r.natAbs < st.r.natAbs) ∧
    ∃ fin, mult_inverse_unroll 32749
        { r := SSS_P, old_r := x, s := 0, old_s := 1, t := 1, old_t := 0 } = some fin ∧
      fin.r = 0 ∧
      mult_inverse_loop { r := SSS_P, old_r := x, s := 0, old_s := 1, t := 1, old_t := 0 }
        = fin := by
  refine ⟨mult_inverse_step_decreases, ?_⟩
  obtain ⟨fin, h1, h2⟩ := mult_inverse_unroll_total 32749
    { r := SSS_P, old_r := x, s := 0, old_s := 1, t := 1, old_t := 0 }
    (show SSS_P.natAbs ≤ 32749 by decide)
  exact ⟨fin, h1, h2, mult_inverse_unroll_sound _ _ _ h1⟩

/-- Witness of `mult_inverse_terminates` at the negative argument `x = -7`. -/
theorem mult_inverse_terminates_witness :
    (∀ st : eea_state, st.r ≠ 0 → (mult_inverse_step st).r.natAbs < st.r.natAbs) ∧
    ∃ fin, mult_inverse_unroll 32749
        { r := SSS_P, old_r := -7, s := 0, old_s := 1, t := 1, old_t := 0 } = some fin ∧
      fin.r = 0 ∧
      mult_inverse_loop { r := SSS_P, old_r := -7, s := 0, old_s := 1, t := 1, old_t := 0 }
        = fin :=
  mult_inverse_terminates (-7)

/-! ## The Lagrange sum does not depend on the order of the shares -/

theorem prod_range_getD (g : share_t → ZMod 32749) (l : List share_t) :
    ∏ j ∈ Finset.range l.length, g (l.getD j ⟨0, 0⟩) = (l.map g).prod := by
  induction l with
  | nil => simp
  | cons a l ih =>
    rw [List.length_cons, Finset.prod_range_succ', List.map_cons, List.prod_cons, mul_comm]
    simp only [List.getD_cons_zero, List.getD_cons_succ]
    rw [ih]

theorem prod_erase_eq_prod_ite (n i : Nat) (g : Nat → ZMod 32749) :
    ∏ j ∈ (Finset.range n).erase i, g j
      = ∏ j ∈ Finset.range n, if j = i then 1 else g j := by
  rw [← Finset.prod_erase (Finset.range n) (f := fun j => if j = i then 1 else g j)
    (a := i) (by simp)]
  refine Finset.prod_congr rfl (fun j hj => ?_)
  rw [if_neg (Finset.ne_of_mem_erase hj)]

theorem lagrange_sum_eq_list : ∀ (l : List share_t) (w : share_t → ZMod 32749),
    ∑ i ∈ Finset.range l.length, w (l.getD i ⟨0, 0⟩) *
        ∏ j ∈ Finset.range l.length,
          (if j = i then 1 else lagrange_term (l.getD i ⟨0, 0⟩).x (l.getD j ⟨0, 0⟩).x)
      = lagrange_list w l := by
  intro l
  induction l with
  | nil => intro w; simp [lagrange_list]
  | cons a l ih =>
    intro w
    rw [List.length_cons, Finset.sum_range_succ', lagrange_list, ← ih, add_comm]
    congr 1
    · rw [Finset.prod_range_succ']
      simp only [List.getD_cons_zero, List.getD_cons_succ, if_true, mul_one,
        Nat.succ_ne_zero, if_false]
      rw [prod_range_getD (fun b => lagrange_term a.x b.x) l]
    · refine Finset.sum_congr rfl (fun i _ => ?_)
      rw [Finset.prod_range_succ']
      simp only [List.getD_cons_zero, List.getD_cons_succ, add_left_inj,
        (Nat.succ_ne_zero i).symm, if_false]
      ring

theorem lagrange_at_zero_eq_list (l : List share_t) :
    lagrange_at_zero l = lagrange_list (fun sh => ((sh.y : Int) : ZMod 32749)) l := by
  rw [← lagrange_sum_eq_list]
  unfold lagrange_at_zero
  refine Finset.sum_congr rfl (fun i _ => ?_)
  rw [prod_erase_eq_prod_ite]
  rfl

theorem lagrange_list_perm {l1 l2 : List share_t} (h : l1.Perm l2) :
    ∀ w : share_t → ZMod 32749, lagrange_list w l1 = lagrange_list w l2 := by
  induction h with
  | nil => intro w; rfl
  | cons a hp ih =>
    intro w
    rw [lagrange_list, lagrange_list, ih, (hp.map (fun b => lagrange_term a.x b.x)).prod_eq]
  | swap a b l =>
    intro w
    simp only [lagrange_list, List.map_cons, List.prod_cons]
    have hw : (fun sh : share_t => w sh * lagrange_term sh.x b.x * lagrange_term sh.x a.x)
        = (fun sh : share_t => w sh * lagrange_term sh.x a.x * lagrange_term sh.x b.x) :=
      funext (fun sh => by ring)
    rw [hw]
    ring
  | trans _ _ ih1 ih2 =>
    intro w
    rw [ih1, ih2]

/-- C19: `combine_shares` does not depend on the order of the shares.  For every
list of shares with x-coordinates in `[1, SSS_P - 1]` and y-coordinates in
`[0, SSS_P)` (equal x-coordinates allowed) and every permutation of it,
`combine_shares` returns the same value, a value of `[0, SSS_P)`. -/
theorem combine_shares_perm (shares perm : List share_t) (hp : perm.Perm shares)
    (hv : ∀ sh ∈ shares, share_ok sh) :
    combine_shares perm.length perm = combine_shares shares.length shares ∧
    0 ≤ combine_shares shares.length shares ∧ combine_shares shares.length shares < SSS_P := by
  have hv' : ∀ sh ∈ perm, share_ok sh := fun sh hsh => hv sh (hp.mem_iff.mp hsh)
  obtain ⟨a0, a1, a2⟩ := combine_shares_cast shares hv
  obtain ⟨b0, b1, b2⟩ := combine_shares_cast perm hv'
  refine ⟨eq_of_cast_eq b0 b1 a0 a1 ?_, a0, a1⟩
  rw [a2, b2, lagrange_at_zero_eq_list, lagrange_at_zero_eq_list, lagrange_list_perm hp]

/-- Witness of `combine_shares_perm`: three shares, one x-coordinate twice, and
their rotation. -/
theorem combine_shares_perm_witness :
    combine_shares 3 [⟨2, 1252⟩, ⟨1, 7⟩, ⟨1, 1240⟩]
      = combine_shares 3 [⟨1, 1240⟩, ⟨2, 1252⟩, ⟨1, 7⟩] ∧
    0 ≤ combine_shares 3 [⟨1, 1240⟩, ⟨2, 1252⟩, ⟨1, 7⟩] ∧
    combine_shares 3 [⟨1, 1240⟩, ⟨2, 1252⟩, ⟨1, 7⟩] < SSS_P :=
  combine_shares_perm [⟨1, 1240⟩, ⟨2, 1252⟩, ⟨1, 7⟩] [⟨2, 1252⟩, ⟨1, 7⟩, ⟨1, 1240⟩]
    (by decide) (by decide)

/-! ## Shares with the same x-coordinate cancel -/

/-- The product of the Lagrange factors of a share that has a twin (another
position with the same x-coordinate) is 0. -/
theorem lagrange_prod_of_twin (l : List share_t) (i j : Nat) (hj : j < l.length) (hij : i ≠ j)
    (hx : (l.getD i ⟨0, 0⟩).x = (l.getD j ⟨0, 0⟩).x) :
    ∏ k ∈ (Finset.range l.length).erase i,
        (-((l.getD k ⟨0, 0⟩).x : ZMod 32749)) *
          (((l.getD i ⟨0, 0⟩).x : ZMod 32749) - ((l.getD k ⟨0, 0⟩).x : ZMod 32749))⁻¹ = 0 := by
  refine Finset.prod_eq_zero (i := j) ?_ ?_
  · rw [Finset.mem_erase, Finset.mem_range]
    exact ⟨fun h => hij h.symm, hj⟩
  · rw [hx, sub_self, inv_zero, mul_zero]

theorem getD_set_x (l : List share_t) (i : Nat) (y : Int) (m : Nat) :
    ((l.set i ⟨(l.getD i ⟨0, 0⟩).x, y⟩).getD m ⟨0, 0⟩).x = (l.getD m ⟨0, 0⟩).x := by
  rw [List.getD_eq_getElem?_getD, List.getD_eq_getElem?_getD, List.getD_eq_getElem?_getD,
    List.getElem?_set]
  by_cases h : i = m
  · subst h
    by_cases h2 : i < l.length
    · rw [if_pos rfl, if_pos h2]; rfl
    · rw [if_pos rfl, if_neg h2, List.getElem?_eq_none (by omega)]
  · rw [if_neg h]

theorem getD_set_y (l : List share_t) (i : Nat) (v : share_t) (m : Nat) (h : m ≠ i) :
    ((l.set i v).getD m ⟨0, 0⟩).y = (l.getD m ⟨0, 0⟩).y := by
  rw [List.getD_eq_getElem?_getD, List.getD_eq_getElem?_getD, List.getElem?_set,
    if_neg (fun e => h e.symm)]

/-- Replacing the y-coordinate of a share that has a twin does not change the
value of `combine_shares`. -/
theorem combine_shares_set_twin (shares : List share_t) (hv : ∀ sh ∈ shares, share_ok sh)
    (i j : Nat) (hi : i < shares.length) (hj : j < shares.length) (hij : i ≠ j)
    (hx : (shares.getD i ⟨0, 0⟩).x = (shares.getD j ⟨0, 0⟩).x)
    (y : Int) (hy0 : 0 ≤ y) (hy : y < SSS_P) :
    combine_shares shares.length (shares.set i ⟨(shares.getD i ⟨0, 0⟩).x, y⟩)
      = combine_shares shares.length shares := by
  have hv' : ∀ sh ∈ shares.set i ⟨(shares.getD i ⟨0, 0⟩).x, y⟩, share_ok sh := by
    intro sh hsh
    rcases List.mem_or_eq_of_mem_set hsh with h | h
    · exact hv sh h
    · subst h
      obtain ⟨x1, x2, -, -⟩ := getD_share_ok hv hi
      exact ⟨x1, x2, hy0, hy⟩
  obtain ⟨a0, a1, a2⟩ := combine_shares_cast shares hv
  obtain ⟨b0, b1, b2⟩ := combine_shares_cast _ hv'
  rw [List.length_set] at b0 b1 b2
  refine eq_of_cast_eq b0 b1 a0 a1 ?_
  rw [a2, b2]
  unfold lagrange_at_zero
  rw [List.length_set]
  refine Finset.sum_congr rfl (fun k _ => ?_)
  simp only [getD_set_x]
  by_cases hk : k = i
  · subst hk
    rw [lagrange_prod_of_twin shares k j hj hij hx, mul_zero, mul_zero]
  · rw [getD_set_y shares i _ k hk]

/-- C17: duplicated shares are silently cancelled.  For every list of shares
with x-coordinates in `[1, SSS_P - 1]` and y-coordinates in `[0, SSS_P)` in
which the shares at two different positions `i` and `j` have the same
x-coordinate, replacing the y-coordinate at `i`, or the one at `j`, by any value
of `[0, SSS_P)` leaves the value of `combine_shares` unchanged; and on two
shares `(x, y1)`, `(x, y2)` of that domain `combine_shares` returns 0. -/
theorem combine_shares_duplicates_cancel (shares : List share_t)
    (hv : ∀ sh ∈ shares, share_ok sh)
    (i j : Nat) (hi : i < shares.length) (hj : j < shares.length) (hij : i ≠ j)
    (hx : (shares.getD i ⟨0, 0⟩).x = (shares.getD j ⟨0, 0⟩).x) :
    (∀ y : Int, 0 ≤ y → y < SSS_P →
      combine_shares shares.length (shares.set i ⟨(shares.getD i ⟨0, 0⟩).x, y⟩)
        = combine_shares shares.length shares ∧
      combine_shares shares.length (shares.set j ⟨(shares.getD j ⟨0, 0⟩).x, y⟩)
        = combine_shares shares.length shares) ∧
    (∀ x y1 y2 : Int, 1 ≤ x → x ≤ SSS_P - 1 → 0 ≤ y1 → y1 < SSS_P → 0 ≤ y2 → y2 < SSS_P →
      combine_shares 2 [⟨x, y1⟩, ⟨x, y2⟩] = 0) := by
  refine ⟨fun y hy0 hy =>
    ⟨combine_shares_set_twin shares hv i j hi hj hij hx y hy0 hy,
      combine_shares_set_twin shares hv j i hj hi (fun h => hij h.symm) hx.symm y hy0 hy⟩, ?_⟩
  intro x y1 y2 hx1 hx2 h10 h11 h20 h21
  have hv2 : ∀ sh ∈ ([⟨x, y1⟩, ⟨x, y2⟩] : List share_t), share_ok sh := by
    intro sh hsh
    simp only [List.mem_cons, List.mem_singleton, List.not_mem_nil, or_false] at hsh
    rcases hsh with rfl | rfl
    · exact ⟨hx1, hx2, h10, h11⟩
    · exact ⟨hx1, hx2, h20, h21⟩
  obtain ⟨c0, c1, c2⟩ := combine_shares_cast [⟨x, y1⟩, ⟨x, y2⟩] hv2
  have hz : lagrange_at_zero [⟨x, y1⟩, ⟨x, y2⟩] = 0 := by
    unfold lagrange_at_zero
    refine Finset.sum_eq_zero (fun k hk => ?_)
    have hk2 : k < 2 := Finset.mem_range.mp hk
    rw [lagrange_prod_of_twin [⟨x, y1⟩, ⟨x, y2⟩] k (1 - k) (by show 1 - k < 2; omega)
      (by omega) (by interval_cases k <;> rfl), mul_zero]
  refine eq_of_cast_eq c0 c1 (by decide) (by decide) ?_
  exact (c2.trans hz).trans Int.cast_zero.symm

/-- Witness of `combine_shares_duplicates_cancel`: in the list `(1, 1240)`,
`(2, 1252)`, `(1, 7)` the positions 0 and 2 hold the same x-coordinate. -/
theorem combine_shares_duplicates_cancel_witness :
    (∀ y : Int, 0 ≤ y → y < SSS_P →
      combine_shares 3 [⟨1, y⟩, ⟨2, 1252⟩, ⟨1, 7⟩]
        = combine_shares 3 [⟨1, 1240⟩, ⟨2, 1252⟩, ⟨1, 7⟩] ∧
      combine_shares 3 [⟨1, 1240⟩, ⟨2, 1252⟩, ⟨1, y⟩]
        = combine_shares 3 [⟨1, 1240⟩, ⟨2, 1252⟩, ⟨1, 7⟩]) ∧
    (∀ x y1 y2 : Int, 1 ≤ x → x ≤ SSS_P - 1 → 0 ≤ y1 → y1 < SSS_P → 0 ≤ y2 → y2 < SSS_P →
      combine_shares 2 [⟨x, y1⟩, ⟨x, y2⟩] = 0) :=
  combine_shares_duplicates_cancel [⟨1, 1240⟩, ⟨2, 1252⟩, ⟨1, 7⟩] (by decide) 0 2
    (by decide) (by decide) (by decide) (by decide)

/-! ## One share fewer than the threshold -/

theorem cast_ne_zero_of_range {c : Int} (h1 : 1 ≤ c) (h2 : c ≤ SSS_P - 1) :
    ((c : Int) : ZMod 32749) ≠ 0 := by
  intro h0
  have hdvd := (ZMod.intCast_zmod_eq_zero_iff_dvd c 32749).mp h0
  have hmod := Int.emod_eq_zero_of_dvd hdvd
  simp only [Nat.cast_ofNat] at hmod
  have hP : SSS_P = 32749 := rfl
  omega

open Polynomial in
/-- Reconstruction from too few shares: the shares that `get_shares` writes at
pairwise different indices `idx`, exactly one fewer than there are coefficients
(the coefficients after the first in `[1, SSS_P - 1]`), are not combined into
the constant coefficient. -/
theorem combine_shares_selection_short (s : Int) (hs0 : 0 ≤ s) (hs : s < SSS_P) (cs : List Int)
    (hcs : ∀ c ∈ cs, 1 ≤ c ∧ c ≤ SSS_P - 1) (hne : cs ≠ []) (t : Int)
    (ht : t = (cs.length : Int) + 1)
    (idx : List Nat) (hnd : idx.Nodup) (hidx : ∀ k ∈ idx, (k : Int) + 1 ≤ SSS_P - 1)
    (hm : idx.length = cs.length) :
    combine_shares (idx.map (share_of (s :: cs) t)).length (idx.map (share_of (s :: cs) t))
      ≠ s := by
  have hP : SSS_P = 32749 := rfl
  have hpos : 0 < cs.length := List.length_pos.mpr hne
  have hcoef : ∀ a ∈ s :: cs, 0 ≤ a ∧ a < SSS_P := by
    intro a ha
    rcases List.mem_cons.mp ha with rfl | ha
    · exact ⟨hs0, hs⟩
    · have := hcs a ha
      exact ⟨by omega, by omega⟩
  have hlen : idx.length ≤ 32749 := by
    have hsub : idx ⊆ List.range 32749 := by
      intro k hk
      have := hidx k hk
      exact List.mem_range.mpr (by omega)
    have := (List.subperm_of_subset hnd hsub).length_le
    simpa using this
  have hev : ∀ k ∈ idx, 0 ≤ (share_of (s :: cs) t k).y ∧ (share_of (s :: cs) t k).y < SSS_P ∧
      (((share_of (s :: cs) t k).y : Int) : ZMod 32749)
        = ∑ i ∈ Finset.range (s :: cs).length,
            (((s :: cs).getD i 0 : Int) : ZMod 32749) * (((k : Int) + 1 : Int) : ZMod 32749) ^ i := by
    intro k hk
    have hk1 := hidx k hk
    have hd : c_sub t 1 = (cs.length : Int) := by
      rw [c_sub_of_range (by omega) (by omega), ht]; ring
    exact evaluate_poly_cast (by omega) (by rw [hP] at hk1 ⊢; omega) (s :: cs) hcoef
      (by simp only [List.length_cons]; omega) _
      (by rw [hd]; simp)
  have hv : ∀ sh ∈ idx.map (share_of (s :: cs) t), share_ok sh := by
    intro sh hsh
    obtain ⟨k, hk, rfl⟩ := List.mem_map.mp hsh
    have hk1 := hidx k hk
    obtain ⟨y0, y1, -⟩ := hev k hk
    exact ⟨by show (1 : Int) ≤ (k : Int) + 1; omega, hk1, y0, y1⟩
  have hxs : ((idx.map (share_of (s :: cs) t)).map (fun sh => sh.x)).Nodup := by
    rw [List.map_map]
    refine hnd.map ?_
    intro a b hab
    have : (a : Int) + 1 = (b : Int) + 1 := hab
    omega
  -- the sharing polynomial, of degree exactly `cs.length`
  have hnat := natDegree_of_coeffs (s :: cs) (by simp)
    (by
      intro _
      simp only [List.length_cons]
      have hk : cs.length - 1 < cs.length := by omega
      rw [show cs.length + 1 - 1 = (cs.length - 1) + 1 by omega, List.getD_cons_succ,
        List.getD_eq_getElem _ _ hk]
      have hmem := hcs _ (List.getElem_mem hk)
      exact cast_ne_zero_of_range hmem.1 hmem.2)
  generalize hf : (∑ i ∈ Finset.range (s :: cs).length,
      C (((s :: cs).getD i 0 : Int) : ZMod 32749) * X ^ i) = f at hnat
  simp only [List.length_cons, Nat.add_sub_cancel] at hnat
  have hf0 : f ≠ 0 := by
    intro h0
    rw [h0] at hnat
    simp at hnat
    omega
  have hlc : f.leadingCoeff ≠ 0 := Polynomial.leadingCoeff_ne_zero.mpr hf0
  have hfeval : ∀ x : ZMod 32749, f.eval x
      = ∑ i ∈ Finset.range (s :: cs).length, (((s :: cs).getD i 0 : Int) : ZMod 32749) * x ^ i := by
    intro x
    rw [← hf, Polynomial.eval_finset_sum]
    refine Finset.sum_congr rfl (fun i _ => ?_)
    simp
  -- the polynomial through the selected shares that has smaller degree
  have hcard : idx.toFinset.card = cs.length := by
    rw [List.toFinset_card_of_nodup hnd, hm]
  have hdegN : (C f.leadingCoeff * Lagrange.nodal idx.toFinset
      (fun k : Nat => (((k : Int) + 1 : Int) : ZMod 32749))).degree = f.degree := by
    rw [Polynomial.degree_C_mul hlc, Lagrange.degree_nodal, hcard,
      Polynomial.degree_eq_natDegree hf0, hnat]
  have hdeg : (f - C f.leadingCoeff * Lagrange.nodal idx.toFinset
      (fun k : Nat => (((k : Int) + 1 : Int) : ZMod 32749))).degree
        < (((idx.map (share_of (s :: cs) t)).length : Nat) : WithBot ℕ) := by
    have h1 := Polynomial.degree_sub_lt hdegN.symm hf0
      (by rw [Polynomial.leadingCoeff_mul_monic Lagrange.nodal_monic,
        Polynomial.leadingCoeff_C])
    rw [Polynomial.degree_eq_natDegree hf0, hnat] at h1
    rw [List.length_map, hm]
    exact h1
  have hlag := lagrange_at_zero_eq_eval _ hv hxs _ hdeg
    (by
      intro sh hsh
      obtain ⟨k, hk, rfl⟩ := List.mem_map.mp hsh
      obtain ⟨-, -, y2⟩ := hev k hk
      rw [y2, Polynomial.eval_sub, Polynomial.eval_mul, hfeval]
      have hnode := Lagrange.eval_nodal_at_node
        (v := fun k : Nat => (((k : Int) + 1 : Int) : ZMod 32749))
        (List.mem_toFinset.mpr hk)
      simp only [share_of] at hnode ⊢
      rw [hnode, mul_zero, sub_zero])
  obtain ⟨c0, c1, c2⟩ := combine_shares_cast _ hv
  intro hcomb
  rw [hcomb, hlag, Polynomial.eval_sub, Polynomial.eval_mul, Polynomial.eval_C, hfeval,
    List.length_cons, Finset.sum_range_succ', Lagrange.eval_nodal] at c2
  simp only [pow_succ, mul_zero, Finset.sum_const_zero, pow_zero, mul_one, zero_add,
    List.getD_cons_zero, zero_sub] at c2
  have hprod : f.leadingCoeff * ∏ i ∈ idx.toFinset, -(((i : Int) + 1 : Int) : ZMod 32749) = 0 := by
    have h := c2
    rw [eq_comm, sub_eq_self] at h
    exact h
  rcases mul_eq_zero.mp hprod with h | h
  · exact hlc h
  · rw [Finset.prod_eq_zero_iff] at h
    obtain ⟨k, hk, hk0⟩ := h
    have hk1 := hidx k (List.mem_toFinset.mp hk)
    exact cast_ne_zero_of_range (by omega) hk1 (neg_eq_zero.mp hk0)

/-- C16: the threshold is tight.  For every `t >= 2`, every `n` with
`t <= n <= SSS_P - 1`, every secret `s` in `[0, SSS_P)` and every outcome of
the coefficient draw, `combine_shares` applied to the shares found at any
`t - 1` pairwise different positions of the array left by `get_shares` returns
a value different from `s`. -/
theorem sub_threshold_differs (s t n : Int) (shares : List share_t) (rng : List Nat)
    (cs : List Int) (rest : List Nat)
    (hs0 : 0 ≤ s) (hs : s < SSS_P) (ht : 2 ≤ t) (htn : t ≤ n) (hn : n ≤ SSS_P - 1)
    (hroom : n.toNat ≤ shares.length)
    (hdraw : draw_coeffs (t - 1).toNat rng = some (cs, rest)) :
    ∃ out, get_shares s t n shares rng = some { ret := none, shares := out, rng := rest } ∧
      ∀ idx : List Nat, idx.Nodup → (∀ k ∈ idx, k < n.toNat) → idx.length + 1 = t.toNat →
        combine_shares idx.length (idx.map (fun k => out.getD k ⟨0, 0⟩)) ≠ s := by
  have hP : SSS_P = 32749 := rfl
  refine ⟨_, get_shares_eq s t n shares rng cs rest (by omega) hdraw, ?_⟩
  intro idx hnd hidx hm
  rw [Int.emod_eq_of_lt hs0 hs]
  obtain ⟨hlen, hc⟩ := draw_coeffs_spec _ _ _ _ hdraw
  have hsel := combine_shares_selection_short s hs0 hs cs hc
    (by intro h0; rw [h0] at hlen; simp at hlen; omega) t (by omega)
    idx hnd (fun k hk => by have := hidx k hk; omega) (by omega)
  rw [List.length_map] at hsel
  have hmap : idx.map (fun k => (write_shares (s :: cs) t n shares).getD k ⟨0, 0⟩)
      = idx.map (share_of (s :: cs) t) := by
    apply List.map_congr_left
    intro k hk
    exact write_shares_getD _ _ _ _ (by omega) hroom k (hidx k hk)
  rw [hmap]
  exact hsel

/-- Witness of `sub_threshold_differs`: secret 1234, threshold 3, 5 shares, the
random source returning 3 and 3; two shares do not give 1234. -/
theorem sub_threshold_differs_witness :
    combine_shares 2 [⟨1, 1240⟩, ⟨2, 1252⟩] ≠ 1234 ∧
    combine_shares 2 [⟨5, 1324⟩, ⟨3, 1270⟩] ≠ 1234 := by
  obtain ⟨out, h1, h2⟩ := sub_threshold_differs 1234 3 5 (List.replicate 5 ⟨0, 0⟩)
    [3, 3] [3, 3] [] (by decide) (by decide) (by decide) (by decide) (by decide) (by decide)
    (by decide)
  have hout : get_shares 1234 3 5 (List.replicate 5 ⟨0, 0⟩) [3, 3]
      = some { ret := none
               shares := [⟨1, 1240⟩, ⟨2, 1252⟩, ⟨3, 1270⟩, ⟨4, 1294⟩, ⟨5, 1324⟩]
               rng := [] } := by decide
  rw [hout] at h1
  simp only [Option.some.injEq, get_shares_result.mk.injEq, true_and, and_true] at h1
  subst h1
  exact ⟨h2 [0, 1] (by decide) (by decide) (by decide),
    h2 [4, 2] (by decide) (by decide) (by decide)⟩

/-! ## Checked arithmetic: no intermediate value leaves the `int` range -/

theorem chk_of_range {z : Int} (h1 : -2147483648 ≤ z) (h2 : z ≤ 2147483647) :
    chk z = some z := by
  unfold chk; rw [if_pos ⟨h1, h2⟩]

/-- Loop rule relating a `for` loop with checked arithmetic to the same loop
with wrapping arithmetic, under an invariant of the latter. -/
theorem foldl_range_chk {α : Type} (f : α → Nat → α) (g : Option α → Nat → Option α) (a0 : α)
    (n : Nat) (I : Nat → α → Prop) (h0 : I 0 a0)
    (hstep : ∀ k a, k < n → I k a → I (k + 1) (f a k) ∧ g (some a) k = some (f a k)) :
    (List.range n).foldl g (some a0) = some ((List.range n).foldl f a0) ∧
      I n ((List.range n).foldl f a0) := by
  induction n with
  | zero => exact ⟨rfl, by simpa using h0⟩
  | succ n ih =>
    obtain ⟨e, hI⟩ := ih (fun k a hk hIk => hstep k a (Nat.lt_succ_of_lt hk) hIk)
    obtain ⟨s1, s2⟩ := hstep n _ (Nat.lt_succ_self n) hI
    rw [List.range_succ, List.foldl_append, List.foldl_append, e]
    simp only [List.foldl_cons, List.foldl_nil]
    exact ⟨s2, s1⟩

theorem power_loop_chk_eq {b : Int} (hb : 0 ≤ b) (hfit : b * (SSS_P - 1) ≤ 2147483647) :
    ∀ (k : Nat) (n : Int), 0 ≤ n → n < SSS_P →
      power_loop_chk b k n = some (power_loop b k n) := by
  have hP : SSS_P = 32749 := rfl
  intro k
  induction k with
  | zero => intro n _ _; rfl
  | succ k ih =>
    intro n hn0 hn
    have h0 : 0 ≤ n * b := mul_nonneg hn0 hb
    have h1 : n * b ≤ 2147483647 := by
      have : n * b ≤ (SSS_P - 1) * b := mul_le_mul_of_nonneg_right (by omega) hb
      have h2 : (SSS_P - 1) * b = b * (SSS_P - 1) := mul_comm _ _
      omega
    simp only [power_loop_chk, power_loop]
    rw [chk_of_range (by omega) h1, Option.some_bind, c_mul_of_range (by omega) h1]
    have e : Int.tmod (n * b) SSS_P = (n * b) % SSS_P := Int.tmod_eq_emod h0 (by decide)
    unfold c_mod
    rw [e]
    exact ih _ (Int.emod_nonneg _ (by decide)) (Int.emod_lt_of_pos _ (by decide))

theorem power_chk_eq {x : Int} (hx0 : 0 ≤ x) (hfit : x * (SSS_P - 1) ≤ 2147483647) (p : Int) :
    power_chk x p = some (power x p) :=
  power_loop_chk_eq hx0 hfit _ 1 (by decide) (by decide)

theorem evaluate_poly_chk_eq {x : Int} (hx0 : 0 ≤ x) (hfit : x * (SSS_P - 1) ≤ 2147483647)
    (c : List Int) (hc : ∀ a ∈ c, 0 ≤ a ∧ a < SSS_P) (hlen : c.length ≤ 2147483647)
    (d : Int) (hd : d + 1 = c.length) :
    evaluate_poly_chk x c d = some (evaluate_poly x c d) := by
  have hP : SSS_P = 32749 := rfl
  unfold evaluate_poly_chk evaluate_poly
  rw [chk_of_range (by omega) (by omega), Option.some_bind,
    c_add_of_range (by omega) (by omega), hd, Int.toNat_ofNat]
  refine (foldl_range_chk _ _ 0 c.length (fun _ a => 0 ≤ a ∧ a < SSS_P)
    ⟨by decide, by decide⟩ ?_).1
  intro k a hk ⟨ha0, ha1⟩
  have hck : 0 ≤ c.getD k 0 ∧ c.getD k 0 < SSS_P := by
    rw [List.getD_eq_getElem _ _ hk]
    exact hc _ (List.getElem_mem hk)
  obtain ⟨p0, p1, -⟩ := power_residue hx0 hfit k
  have hm0 : 0 ≤ c.getD k 0 * power x k := mul_nonneg hck.1 p0
  have hm1 : c.getD k 0 * power x k ≤ 2147483647 := by
    have h1 : c.getD k 0 * power x k ≤ (SSS_P - 1) * power x k :=
      mul_le_mul_of_nonneg_right (by omega) p0
    have h2 : (SSS_P - 1) * power x k ≤ (SSS_P - 1) * (SSS_P - 1) :=
      mul_le_mul_of_nonneg_left (by omega) (by decide)
    have h3 : (SSS_P - 1) * (SSS_P - 1) = 1072431504 := by decide
    omega
  have e1 : Int.tmod (c.getD k 0 * power x k) SSS_P = (c.getD k 0 * power x k) % SSS_P :=
    Int.tmod_eq_emod hm0 (by decide)
  have m0 := Int.emod_nonneg (c.getD k 0 * power x k) (show SSS_P ≠ 0 by decide)
  have m1 := Int.emod_lt_of_pos (c.getD k 0 * power x k) (show 0 < SSS_P by decide)
  have e2 : Int.tmod (a + (c.getD k 0 * power x k) % SSS_P) SSS_P
      = (a + (c.getD k 0 * power x k) % SSS_P) % SSS_P :=
    Int.tmod_eq_emod (by omega) (by decide)
  refine ⟨?_, ?_⟩
  · simp only [c_mul_of_range (show -2147483648 ≤ c.getD k 0 * power x k by omega) hm1]
    unfold c_mod
    rw [e1, c_add_of_range (by omega) (by omega), e2]
    exact ⟨Int.emod_nonneg _ (by decide), Int.emod_lt_of_pos _ (by decide)⟩
  · simp only [Option.some_bind, power_chk_eq hx0 hfit,
      chk_of_range (show -2147483648 ≤ c.getD k 0 * power x k by omega) hm1, e1,
      c_mul_of_range (show -2147483648 ≤ c.getD k 0 * power x k by omega) hm1]
    rw [chk_of_range (by omega) (by omega), Option.some_bind]
    unfold c_mod
    rw [e1, c_add_of_range (by omega) (by omega)]

/-- Under the loop invariant, the seven values of one iteration of the loop of
`mult_inverse` fit an `int`, so the iteration with wrapping arithmetic is the
iteration over the unbounded integers. -/
theorem mult_inverse_step_fits_of_inv {x : Int} (hx : x ≤ 2147483647) {st : eea_state}
    (h : eea_inv x st) (hr : st.r ≠ 0) :
    mult_inverse_step_fits st ∧ mult_inverse_step st = mult_inverse_step_Z st := by
  obtain ⟨r, old_r, s, old_s, t, old_t⟩ := st
  obtain ⟨h1, h2, h3, h4, hb1, hb2, ⟨e, he, hs, hos, ht, hot, hdetS, hdetT⟩,
    hsb, hosb, htb, hotb⟩ := h
  simp only at h1 h2 h3 h4 hb1 hb2 hs hos ht hot hdetS hdetT hsb hosb htb hotb hr
  have hP : SSS_P = 32749 := rfl
  have hrpos : 0 < r := by omega
  have hq0 : 0 ≤ old_r / r := Int.ediv_nonneg h2 h1
  have hqr : old_r / r * r ≤ old_r := Int.ediv_mul_le _ hr
  have hmod : old_r - old_r / r * r = old_r % r := by rw [Int.emod_def]; ring
  have hmod0 := Int.emod_nonneg old_r hr
  have hmodlt := Int.emod_lt_of_pos old_r hrpos
  have hqle : old_r / r ≤ old_r := by nlinarith
  have htd : Int.tdiv old_r r = old_r / r := Int.tdiv_eq_ediv h2 h1
  have hdiv : c_div old_r r = old_r / r := by
    unfold c_div
    rw [htd]
    exact wrap32_of_range (by omega) (by omega)
  unfold mult_inverse_step_fits mult_inverse_step mult_inverse_step_Z
  simp only [htd, hdiv]
  generalize old_r / r = q at hq0 hqr hmod hqle
  have hqr0 : 0 ≤ q * r := mul_nonneg hq0 h1
  have hS : 0 ≤ (-e) * (old_s - q * s) ∧ (-e) * (old_s - q * s) ≤ SSS_P ∧
      0 ≤ e * (q * s) ∧ e * (q * s) ≤ SSS_P := by
    have a1 : 0 ≤ q * (e * s) := mul_nonneg hq0 hs
    have a2 : (-e) * ((old_s - q * s) * r - s * (old_r - q * r)) = SSS_P := by
      rw [← hdetS]; ring
    have a3 : 0 ≤ (-e) * (old_s - q * s) := by
      have : (-e) * (old_s - q * s) = -(e * old_s) + q * (e * s) := by ring
      omega
    have a4 : 0 ≤ (e * s) * (old_r - q * r) := mul_nonneg hs (by omega)
    have a5 : (-e) * (old_s - q * s) ≤ (-e) * (old_s - q * s) * r :=
      le_mul_of_one_le_right a3 (by omega)
    have a6 : (-e) * (old_s - q * s) * r + (e * s) * (old_r - q * r) = SSS_P := by
      rw [← a2]; ring
    have a7 : (-e) * (old_s - q * s) = -(e * old_s) + q * (e * s) := by ring
    have a8 : e * (q * s) = q * (e * s) := by ring
    refine ⟨a3, by omega, by omega, by omega⟩
  have hT : (-e) * (old_t - q * t) ≤ 0 ∧ -x ≤ (-e) * (old_t - q * t) ∧
      e * (q * t) ≤ 0 ∧ -x ≤ e * (q * t) := by
    have a1 : q * (e * t) ≤ 0 := mul_nonpos_of_nonneg_of_nonpos hq0 ht
    have a2 : (-e) * (t * (old_r - q * r) - (old_t - q * t) * r) = x := by
      rw [← hdetT]; ring
    have a3 : 0 ≤ e * (old_t - q * t) := by
      have : e * (old_t - q * t) = e * old_t - q * (e * t) := by ring
      omega
    have a4 : 0 ≤ (-(e * t)) * (old_r - q * r) := mul_nonneg (by omega) (by omega)
    have a5 : e * (old_t - q * t) ≤ e * (old_t - q * t) * r :=
      le_mul_of_one_le_right a3 (by omega)
    have a6 : e * (old_t - q * t) * r + (-(e * t)) * (old_r - q * r) = x := by
      rw [← a2]; ring
    have a7 : e * (old_t - q * t) = e * old_t - q * (e * t) := by ring
    have a8 : e * (q * t) = q * (e * t) := by ring
    have a9 : (-e) * (old_t - q * t) = -(e * (old_t - q * t)) := by ring
    refine ⟨by omega, by omega, by omega, by omega⟩
  have hqs : -SSS_P ≤ q * s ∧ q * s ≤ SSS_P ∧ -SSS_P ≤ old_s - q * s ∧ old_s - q * s ≤ SSS_P := by
    obtain ⟨b1, b2, b3, b4⟩ := hS
    rcases he with rfl | rfl
    · simp only [one_mul, neg_mul] at b1 b2 b3 b4; omega
    · simp only [neg_neg, one_mul, neg_mul] at b1 b2 b3 b4; omega
  have hqt : -x ≤ q * t ∧ q * t ≤ x ∧ -x ≤ old_t - q * t ∧ old_t - q * t ≤ x := by
    obtain ⟨b1, b2, b3, b4⟩ := hT
    rcases he with rfl | rfl
    · simp only [one_mul, neg_mul] at b1 b2 b3 b4; omega
    · simp only [neg_neg, one_mul, neg_mul] at b1 b2 b3 b4; omega
  have c1 := chk_of_range (z := q) (by omega) (by omega)
  have c2 := chk_of_range (z := q * r) (by omega) (by omega)
  have c3 := chk_of_range (z := old_r - q * r) (by omega) (by omega)
  have c4 := chk_of_range (z := q * s) (by omega) (by omega)
  have c5 := chk_of_range (z := old_s - q * s) (by omega) (by omega)
  have c6 := chk_of_range (z := q * t) (by omega) (by omega)
  have c7 := chk_of_range (z := old_t - q * t) (by omega) (by omega)
  refine ⟨?_, ?_⟩
  · rw [c1, c2, c3, c4, c5, c6, c7]
    simp
  · rw [c_mul_of_range (a := q) (b := r) (by omega) (by omega),
      c_sub_of_range (a := old_r) (by omega) (by omega),
      c_mul_of_range (a := q) (b := s) (by omega) (by omega),
      c_sub_of_range (a := old_s) (by omega) (by omega),
      c_mul_of_range (a := q) (b := t) (by omega) (by omega),
      c_sub_of_range (a := old_t) (by omega) (by omega)]

theorem mult_inverse_loop_chk_eq {x : Int} (hx : x ≤ 2147483647) :
    ∀ st, eea_inv x st → mult_inverse_loop_chk st = some (mult_inverse_loop st) := by
  intro st
  induction st using mult_inverse_loop.induct with
  | case1 st h =>
    intro _
    rw [mult_inverse_loop_chk, if_pos h, mult_inverse_loop, if_pos h]
  | case2 st h ih =>
    intro hi
    obtain ⟨f1, f2⟩ := mult_inverse_step_fits_of_inv hx hi h
    rw [mult_inverse_loop_chk, if_neg h, if_pos f1, mult_inverse_loop, if_neg h, ← f2]
    exact ih (mult_inverse_step_inv hx hi h)

/-- On every argument in `[0, 2^31)`, `mult_inverse` computes without leaving
the `int` range. -/
theorem mult_inverse_chk_eq {x : Int} (hx0 : 0 ≤ x) (hx : x ≤ 2147483647) :
    mult_inverse_chk x = some (mult_inverse x) := by
  have hP : SSS_P = 32749 := rfl
  unfold mult_inverse_chk mult_inverse
  rw [mult_inverse_loop_chk_eq hx _ (eea_inv_init hx0 hx), Option.some_bind]
  simp only
  generalize (mult_inverse_loop
    { r := SSS_P, old_r := x, s := 0, old_s := 1, t := 1, old_t := 0 }).old_s = z
  by_cases hz : z ≥ 0
  · rw [if_pos hz, if_pos hz]; rfl
  · rw [if_neg hz, if_neg hz]
    have h := c_mod_eq_ite z
    rw [if_neg (by omega)] at h
    unfold c_mod at h
    unfold NEG_MOD_chk NEG_MOD c_mod
    rw [h, hP, chk_of_range (by omega) (by omega), c_add_of_range (by omega) (by omega)]

theorem mul_residue_range {a b : Int} (ha0 : 0 ≤ a) (ha : a < SSS_P) (hb0 : 0 ≤ b)
    (hb : b < SSS_P) : 0 ≤ a * b ∧ a * b ≤ 2147483647 := by
  have hP : SSS_P = 32749 := rfl
  have h1 : a * b ≤ (SSS_P - 1) * b := mul_le_mul_of_nonneg_right (by omega) hb0
  have h2 : (SSS_P - 1) * b ≤ (SSS_P - 1) * (SSS_P - 1) :=
    mul_le_mul_of_nonneg_left (by omega) (by decide)
  have h3 : (SSS_P - 1) * (SSS_P - 1) = 1072431504 := by decide
  exact ⟨mul_nonneg ha0 hb0, by omega⟩

theorem lagrange_factor_chk_eq {xi xj : Int} (hi1 : 1 ≤ xi) (hi2 : xi ≤ SSS_P - 1)
    (hj1 : 1 ≤ xj) (hj2 : xj ≤ SSS_P - 1) :
    lagrange_factor_chk xi xj = some (lagrange_factor xi xj) := by
  have hP : SSS_P = 32749 := rfl
  have t1 : Int.tmod (-xj) SSS_P = -xj := tmod_of_small (z := -xj) (by omega) (by omega)
  have t2 : Int.tmod xi SSS_P = xi := tmod_of_small (z := xi) (by omega) (by omega)
  have hb : (xi + (-xj + SSS_P)) % SSS_P ≠ 0 ∨ xi + (-xj + SSS_P) = SSS_P := by
    rw [hP]; omega
  obtain ⟨m0, m1, -⟩ := mult_inverse_residue (b := xi + (-xj + SSS_P)) (by omega) (by omega) hb
  obtain ⟨q0, q1⟩ := mul_residue_range (a := -xj + SSS_P) (by omega) (by omega) m0 m1
  unfold lagrange_factor_chk lagrange_factor NEG_MOD_chk NEG_MOD c_neg c_add c_mul c_mod
  rw [chk_of_range (z := -xj) (by omega) (by omega), Option.some_bind, t1,
    chk_of_range (z := -xj + SSS_P) (by omega) (by omega), Option.some_bind, t2,
    chk_of_range (z := xi + (-xj + SSS_P)) (by omega) (by omega), Option.some_bind,
    mult_inverse_chk_eq (by omega) (by omega), Option.some_bind,
    chk_of_range (by omega) q1, Option.some_bind,
    wrap32_of_range (z := -xj) (by omega) (by omega), t1,
    wrap32_of_range (z := -xj + SSS_P) (by omega) (by omega),
    wrap32_of_range (z := xi + (-xj + SSS_P)) (by omega) (by omega),
    wrap32_of_range (by omega) q1]

theorem combine_inner_chk_eq (shares : List share_t) (hv : ∀ sh ∈ shares, share_ok sh)
    (i : Nat) (hi : i < shares.length) :
    combine_inner_chk shares.length shares i = some (combine_inner shares.length shares i) := by
  unfold combine_inner_chk combine_inner
  rw [Int.toNat_ofNat]
  refine (foldl_range_chk _ _ 1 shares.length (fun _ a => 0 ≤ a ∧ a < SSS_P)
    ⟨by decide, by decide⟩ ?_).1
  intro k a hk ⟨ha0, ha1⟩
  by_cases hki : k = i
  · simp only [hki, if_true, Option.some_bind]
    exact ⟨⟨ha0, ha1⟩, trivial⟩
  · obtain ⟨xi1, xi2, -, -⟩ := getD_share_ok hv hi
    obtain ⟨xk1, xk2, -, -⟩ := getD_share_ok hv hk
    obtain ⟨f0, f1, -⟩ := lagrange_factor_spec xi1 xi2 xk1 xk2
    obtain ⟨q0, q1⟩ := mul_residue_range ha0 ha1 f0 f1
    simp only [hki, if_false, Option.some_bind, lagrange_factor_chk_eq xi1 xi2 xk1 xk2]
    rw [chk_of_range (by omega) q1, Option.some_bind]
    refine ⟨?_, ?_⟩
    · rw [c_mod_c_mul_residues ha0 ha1 f0 f1]
      exact ⟨Int.emod_nonneg _ (by decide), Int.emod_lt_of_pos _ (by decide)⟩
    · rw [c_mul_of_range (by omega) q1]
      rfl

/-- On shares of the domain, `combine_shares` computes without leaving the
`int` range. -/
theorem combine_shares_chk_eq (shares : List share_t) (hv : ∀ sh ∈ shares, share_ok sh) :
    combine_shares_chk shares.length shares = some (combine_shares shares.length shares) := by
  have hP : SSS_P = 32749 := rfl
  unfold combine_shares_chk combine_shares
  rw [Int.toNat_ofNat]
  refine (foldl_range_chk _ _ 0 shares.length (fun _ a => 0 ≤ a ∧ a < SSS_P)
    ⟨by decide, by decide⟩ ?_).1
  intro k a hk ⟨ha0, ha1⟩
  obtain ⟨-, -, y0, y1⟩ := getD_share_ok hv hk
  obtain ⟨p0, p1, -⟩ := combine_inner_spec shares hv k hk
  obtain ⟨q0, q1⟩ := mul_residue_range p0 p1 y0 y1
  have e1 : Int.tmod (combine_inner shares.length shares k * (shares.getD k ⟨0, 0⟩).y) SSS_P
      = (combine_inner shares.length shares k * (shares.getD k ⟨0, 0⟩).y) % SSS_P :=
    Int.tmod_eq_emod q0 (by decide)
  have m0 := Int.emod_nonneg (combine_inner shares.length shares k * (shares.getD k ⟨0, 0⟩).y)
    (show SSS_P ≠ 0 by decide)
  have m1 := Int.emod_lt_of_pos
    (combine_inner shares.length shares k * (shares.getD k ⟨0, 0⟩).y)
    (show 0 < SSS_P by decide)
  simp only [Option.some_bind, combine_inner_chk_eq shares hv k hk]
  rw [chk_of_range (by omega) q1, Option.some_bind, e1,
    chk_of_range (by omega) (by omega), Option.some_bind,
    c_mod_c_mul_residues p0 p1 y0 y1, c_add_of_range (by omega) (by omega)]
  refine ⟨?_, rfl⟩
  rw [c_mod_of_nonneg (by omega)]
  exact ⟨Int.emod_nonneg _ (by decide), Int.emod_lt_of_pos _ (by decide)⟩

theorem write_shares_chk_eq (coeffs : List Int) (hc : ∀ a ∈ coeffs, 0 ≤ a ∧ a < SSS_P)
    (t n : Int) (ht : (coeffs.length : Int) = t) (htn : t ≤ n) (hn : n ≤ SSS_P - 1)
    (shares : List share_t) :
    write_shares_chk coeffs t n shares = some (write_shares coeffs t n shares) := by
  have hP : SSS_P = 32749 := rfl
  have hlen : coeffs.length ≤ 2147483647 := by omega
  unfold write_shares_chk write_shares
  refine (foldl_range_chk _ _ shares n.toNat (fun _ _ => True) trivial ?_).1
  intro k sh hk _
  refine ⟨trivial, ?_⟩
  dsimp only
  rw [Option.some_bind, chk_of_range (z := (k : Int) + 1) (by omega) (by omega),
    Option.some_bind,
    chk_of_range (z := t - 1) (by omega) (by omega), Option.some_bind,
    evaluate_poly_chk_eq (x := (k : Int) + 1) (by omega) (by rw [hP]; omega) coeffs hc hlen
      (t - 1) (by omega),
    Option.some_bind, c_add_of_range (by omega) (by omega),
    c_sub_of_range (by omega) (by omega)]

/-- For `1 <= t <= n <= SSS_P - 1`, `get_shares` computes without leaving the
`int` range: with checked arithmetic it has the same outcome. -/
theorem get_shares_chk_eq (s t n : Int) (shares : List share_t) (rng : List Nat)
    (ht : 1 ≤ t) (htn : t ≤ n) (hn : n ≤ SSS_P - 1) :
    get_shares_chk s t n shares rng = get_shares s t n shares rng := by
  have hP : SSS_P = 32749 := rfl
  have hsec : (if Int.tmod s SSS_P < 0 then chk (Int.tmod s SSS_P + SSS_P)
      else some (Int.tmod s SSS_P)) = some (s % SSS_P) := by
    have h := c_mod_eq_ite s
    unfold c_mod at h
    by_cases h0 : 0 ≤ s
    · rw [if_pos h0] at h
      rw [if_neg (by rw [h]; omega), h]
    · rw [if_neg h0] at h
      by_cases h1 : Int.tmod s SSS_P < 0
      · rw [if_pos h1, chk_of_range (by rw [h, hP]; omega) (by rw [h, hP]; omega), h, hP]
        rw [h] at h1
        congr 1
        omega
      · rw [if_neg h1, h]
        rw [h] at h1
        congr 1
        rw [hP]
        omega
  unfold get_shares_chk
  rw [if_neg (by omega), hsec, Option.some_bind]
  cases hd : draw_coeffs (t - 1).toNat rng with
  | none =>
    have e : get_shares s t n shares rng = none := by
      unfold get_shares; rw [if_neg (by omega)]; simp only [hd]
    rw [e]
  | some p =>
    obtain ⟨cs, rest⟩ := p
    obtain ⟨hlen, hc⟩ := draw_coeffs_spec _ _ _ _ hd
    have hcoef : ∀ a ∈ (s % SSS_P) :: cs, 0 ≤ a ∧ a < SSS_P := by
      intro a ha
      rcases List.mem_cons.mp ha with rfl | ha
      · exact ⟨Int.emod_nonneg _ (by decide), Int.emod_lt_of_pos _ (by decide)⟩
      · have := hc a ha
        exact ⟨by omega, by omega⟩
    rw [get_shares_eq s t n shares rng cs rest (by omega) hd]
    simp only
    rw [write_shares_chk_eq ((s % SSS_P) :: cs) hcoef t n
      (by simp only [List.length_cons, hlen]; push_cast; omega) htn hn shares,
      Option.some_bind]

/-- C14: native `int` arithmetic suffices.  For every secret, every
`1 <= t <= n <= SSS_P - 1` and every outcome of the coefficient draw,
`get_shares` evaluated with checked arithmetic (in `power` and `evaluate_poly`
too) has the outcome of `get_shares` with wrapping arithmetic; and for every
list of shares with x-coordinates in `[1, SSS_P - 1]` and y-coordinates in
`[0, SSS_P)`, `combine_shares` evaluated with checked arithmetic (inside
`mult_inverse` too) returns the value of `combine_shares` with wrapping
arithmetic.  So no intermediate value leaves the signed 32-bit range, and the
wrapped results are the results over the unbounded integers. -/
theorem native_int_suffices :
    (∀ (s t n : Int) (shares : List share_t) (rng : List Nat) (cs : List Int) (rest : List Nat),
      1 ≤ t → t ≤ n → n ≤ SSS_P - 1 → draw_coeffs (t - 1).toNat rng = some (cs, rest) →
      ∃ res, get_shares s t n shares rng = some res ∧
        get_shares_chk s t n shares rng = some res) ∧
    (∀ shares : List share_t, (∀ sh ∈ shares, share_ok sh) →
      combine_shares_chk shares.length shares
        = some (combine_shares shares.length shares)) := by
  refine ⟨?_, combine_shares_chk_eq⟩
  intro s t n shares rng cs rest ht htn hn hdraw
  have e := get_shares_eq s t n shares rng cs rest (by omega) hdraw
  exact ⟨_, e, (get_shares_chk_eq s t n shares rng ht htn hn).trans e⟩

/-- Witness of `native_int_suffices`: secret -5, threshold 3, 5 shares, the
random source returning 3 and 3, and the reconstruction from three of the
shares; for comparison, the checked `evaluate_poly` at `x = 89500` overflows. -/
theorem native_int_suffices_witness :
    (∃ res, get_shares (-5) 3 5 (List.replicate 5 ⟨0, 0⟩) [3, 3] = some res ∧
      get_shares_chk (-5) 3 5 (List.replicate 5 ⟨0, 0⟩) [3, 3] = some res) ∧
    combine_shares_chk 3 [⟨1, 1⟩, ⟨2, 13⟩, ⟨3, 31⟩]
      = some (combine_shares 3 [⟨1, 1⟩, ⟨2, 13⟩, ⟨3, 31⟩]) ∧
    get_shares_chk (-5) 3 5 (List.replicate 5 ⟨0, 0⟩) [3, 3]
      = some { ret := none
               shares := [⟨1, 1⟩, ⟨2, 13⟩, ⟨3, 31⟩, ⟨4, 55⟩, ⟨5, 85⟩]
               rng := [] } ∧
    evaluate_poly_chk 89500 [0, 1, 1] 2 = none :=
  ⟨native_int_suffices.1 (-5) 3 5 (List.replicate 5 ⟨0, 0⟩) [3, 3] [3, 3] []
      (by decide) (by decide) (by decide) (by decide),
    native_int_suffices.2 [⟨1, 1⟩, ⟨2, 13⟩, ⟨3, 31⟩] (by decide),
    by decide, by decide⟩

end SSS
